import Mathlib

/-!
Verification of the seam-carving core (`src/seam_carving.py`).

The numpy float64 scalars are modelled as exact rationals (`ℚ`); `float('inf')`
padding values are modelled as `⊤ : WithTop ℚ`.  A numpy `(H, W)` array is a
`List (List ℚ)` of H rows of length W; a colour image `(H, W, 3)` is a
`List (List RGB)`.  The numpy dtype of an array is tracked by the wrapper
structure `Arr`, because `duplicate_seam` allocates its output with `np.zeros`
(dtype float64) while `remove_seam` copies its input (dtype preserved).
Python `assert` statements that implement input validation or the seam-label
overwrite check are modelled as `Option` failures (`none`); the claims below
prove that the remaining internal asserts (path values in {-1,0,1}, seam
bounds) never fire on the reachable inputs, so they are not `Option`-modelled.
All functions are modelled at their default `axis=1` (width) orientation,
which is the orientation every claim refers to.
-/

section SeamCarvingDev

attribute [local semireducible] Rat.add Rat.mul Rat.sub Rat.inv

namespace SeamCarving

abbrev Mat (α : Type) := List (List α)

/-- A colour pixel: the three channel samples of an (H, W, 3) image. -/
abbrev RGB : Type := ℚ × ℚ × ℚ

/-- The numpy dtypes that occur in the claims: integer pixel grids and the
float64 arrays produced by `np.zeros`/float arithmetic. -/
inductive DType
  | int64
  | float64
deriving DecidableEq

/-- A numpy array: its dtype together with its (exactly represented) entries. -/
structure Arr (α : Type) where
  dtype : DType
  data : Mat α
deriving DecidableEq

def widthOf (m : Mat α) : ℕ := (m.headD []).length

/-- `m` is a well-formed H × W array (H rows, each of length W). -/
def IsRect (m : Mat α) (H W : ℕ) : Prop :=
  m.length = H ∧ ∀ r ∈ m, r.length = W

instance (m : Mat α) (H W : ℕ) : Decidable (IsRect m H W) := by
  unfold IsRect; infer_instance

/-- skimage `color.rgb2gray` on one pixel: luminance weights 0.2125, 0.7154,
0.0721. -/
def rgb2gray_px (p : RGB) : ℚ :=
  2125/10000 * p.1 + 7154/10000 * p.2.1 + 721/10000 * p.2.2

/-- skimage `color.rgb2gray`: (H, W, 3) → (H, W). -/
def rgb2gray (img : Mat RGB) : Mat ℚ :=
  img.map (fun row => row.map rgb2gray_px)

/-- `np.gradient` along a 1-D array: one-sided differences at the two ends,
central differences (divided by 2) in the interior.  numpy raises
(`ValueError`) when the axis has fewer than 2 samples, modelled as `none`. -/
def grad1 (a : List ℚ) : Option (List ℚ) :=
  if a.length < 2 then none
  else some ((List.range a.length).map fun j =>
    if j = 0 then a.getD 1 0 - a.getD 0 0
    else if j = a.length - 1 then a.getD j 0 - a.getD (j - 1) 0
    else (a.getD (j + 1) 0 - a.getD (j - 1) 0) / 2)

def mapOpt (f : α → Option β) : List α → Option (List β)
  | [] => some []
  | x :: xs =>
    match f x, mapOpt f xs with
    | some y, some ys => some (y :: ys)
    | _, _ => none

/-- Transpose of a rectangular matrix (column j of `m` becomes row j). -/
def transposeQ (m : Mat ℚ) : Mat ℚ :=
  (List.range (widthOf m)).map (fun j => m.map (fun r => r.getD j 0))

/-- `np.gradient(g, axis=1)`: gradient along each row. -/
def gradAxis1 (m : Mat ℚ) : Option (Mat ℚ) := mapOpt grad1 m

/-- `np.gradient(g, axis=0)`: gradient along each column. -/
def gradAxis0 (m : Mat ℚ) : Option (Mat ℚ) :=
  (mapOpt grad1 (transposeQ m)).map transposeQ

/-- `energy_function(image)`: |gradient axis 0| + |gradient axis 1| of the
grayscale image. -/
def energy_function (img : Mat RGB) : Option (Mat ℚ) := do
  let g := rgb2gray img
  let a0 ← gradAxis0 g
  let a1 ← gradAxis1 g
  pure (List.zipWith (fun r0 r1 => List.zipWith (fun x y => |x| + |y|) r0 r1) a0 a1)

/-- Read entry `j` of a cost row, where the out-of-range entries are the
`float('inf')` padding of `cost_padded` (modelled as `⊤`). -/
def atZ (r : List ℚ) (j : ℤ) : WithTop ℚ :=
  if 0 ≤ j ∧ j < (r.length : ℤ) then ((r.getD j.toNat 0 : ℚ) : WithTop ℚ) else ⊤

/-- One column of `np.amin(stack, axis=0)` and `np.argmin(stack, axis=0) - 1`:
the minimum of the three stacked candidates and the direction of the first
(left-most) candidate attaining it.  `np.argmin` returns the smallest index on
ties, hence the branch order left, middle, right. -/
def pick3 (c0 c1 c2 : WithTop ℚ) : WithTop ℚ × ℤ :=
  if c0 ≤ c1 ∧ c0 ≤ c2 then (c0, -1)
  else if c1 ≤ c2 then (c1, 0)
  else (c2, 1)

/-- Cell `(i, j)` of `compute_cost`: stack the padded previous cost row at
columns j-1, j, j+1, take min + energy and argmin - 1. -/
def costStepCell (prev : List ℚ) (e : ℚ) (j : ℕ) : ℚ × ℤ :=
  let p := pick3 (atZ prev ((j : ℤ) - 1)) (atZ prev (j : ℤ)) (atZ prev ((j : ℤ) + 1))
  (p.1.untop' 0 + e, p.2)

/-- One iteration of the row loop of `compute_cost`. -/
def costRowStep (prev erow : List ℚ) : List ℚ × List ℤ :=
  ((List.range erow.length).map fun j => (costStepCell prev (erow.getD j 0) j).1,
   (List.range erow.length).map fun j => (costStepCell prev (erow.getD j 0) j).2)

def costRows (prev : List ℚ) : List (List ℚ) → Mat ℚ × Mat ℤ
  | [] => ([], [])
  | e :: rs =>
    let c := costRowStep prev e
    let rest := costRows c.1 rs
    (c.1 :: rest.1, c.2 :: rest.2)

/-- `compute_cost(image, energy)` (default `axis=1`; the image argument is
unused by the source).  Row 0 of the cost is row 0 of the energy, row 0 of the
paths is 0.  The trailing source assert (paths values in {-1,0,1}) always
holds; see `compute_cost_paths_mem`. -/
def compute_cost (energy : Mat ℚ) : Mat ℚ × Mat ℤ :=
  match energy with
  | [] => ([], [])
  | e0 :: rest =>
    let r := costRows e0 rest
    (e0 :: r.1, (e0.map fun _ => (0 : ℤ)) :: r.2)

/-- `paths[i+1, seam[i+1]]` with numpy index semantics (a negative index in
`[-len, 0)` wraps; every proved use is in `[0, len)` where this is plain
indexing). -/
def idxWrap (r : List ℤ) (p : ℤ) : ℤ := r.getD (p % (r.length : ℤ)).toNat 0

def btAux : Mat ℤ → ℤ → List ℤ
  | [], _ => []
  | r :: rs, p => p :: btAux rs (p + idxWrap r p)

/-- `backtrack_seam(paths, end)`: walk upward from `(H-1, end)` following the
direction grid.  The source assert (all seam values in [0, W)) always holds
for paths produced by `compute_cost`; see claim C6. -/
def backtrack_seam (paths : Mat ℤ) (e : ℤ) : List ℤ :=
  (btAux paths.reverse e).reverse

/-- Row `i` of `remove_seam`: `out[i, seam[i]:N-1] = out[i, seam[i]+1:N]`
followed by dropping the last column.  For `s < N` this deletes entry `s`; for
`s ≥ N` the slice assignment is empty and the last entry is dropped. -/
def remove_seam_row (row : List α) (s : ℕ) : List α :=
  row.take (min s (row.length - 1)) ++ row.drop (s + 1)

/-- `remove_seam(image, seam)` on the pixel data.  The 2-D case of the source
(`expand_dims` then `squeeze`) is the same row operation with scalar cells,
covered here by the cell type `α`.  The source's dtype-preservation assert
holds by construction (`remove_seamA` keeps the dtype). -/
def remove_seam (img : Mat α) (seam : List ℕ) : Mat α :=
  List.zipWith remove_seam_row img seam

/-- `remove_seam` at the array level: `out = np.copy(image)` keeps the dtype. -/
def remove_seamA (a : Arr α) (seam : List ℕ) : Arr α :=
  ⟨a.dtype, remove_seam a.data seam⟩

/-- Row `i` of `duplicate_seam`: the row is written into a zero row of length
N+1, then `out[i, seam[i]+1:N+1] = out[i, seam[i]:N]`.  For `s < N` entry `s`
is duplicated; for `s ≥ N` the slice assignment is empty, leaving the trailing
zero cell. -/
def duplicate_seam_row [Zero α] (row : List α) (s : ℕ) : List α :=
  if s < row.length then row.take (s + 1) ++ row.drop s
  else row ++ [0]

/-- `duplicate_seam(image, seam)` on the pixel data. -/
def duplicate_seam [Zero α] (img : Mat α) (seam : List ℕ) : Mat α :=
  List.zipWith duplicate_seam_row img seam

/-- `duplicate_seam` at the array level: `out = np.zeros((H, W+1, C))` always
allocates a float64 array, so the output dtype is float64 whatever the input
dtype was. -/
def duplicate_seamA [Zero α] (a : Arr α) (seam : List ℕ) : Arr α :=
  ⟨DType.float64, duplicate_seam a.data seam⟩

/-- `np.argmin` of a 1-D array: index of the first occurrence of the minimum. -/
def argminQ : List ℚ → ℕ
  | [] => 0
  | x :: xs => if xs.all (fun y => decide (x ≤ y)) then 0 else argminQ xs + 1

/-- The seam-selection steps shared verbatim by `reduce`, `find_seams` and
`remove_object`: `end = np.argmin(cost[H-1])` (left-most minimum) followed by
`backtrack_seam(paths, end)`, on the cost/paths of `compute_cost(energy)`. -/
def optSeam (H : ℕ) (energy : Mat ℚ) : List ℤ :=
  backtrack_seam (compute_cost energy).2
    ((argminQ ((compute_cost energy).1.getD (H - 1) []) : ℕ) : ℤ)

/-- One iteration of the loop of `reduce` (and of the seam-removal loop of
`remove_object` with the mask step removed): energy, cost, left-most argmin of
the last row (`cost[H-1]`, `H` the fixed row count), backtrack, remove. -/
def carveStep (H : ℕ) (a : Arr RGB) : Option (Arr RGB) := do
  let energy ← energy_function a.data
  pure (remove_seamA a ((optSeam H energy).map Int.toNat))

def iterOpt (f : α → Option α) : ℕ → α → Option α
  | 0, a => some a
  | n + 1, a => (f a).bind (iterOpt f n)

/-- `reduce(image, size)` (default `axis=1`): requires `W > size > 0` (the two
leading asserts, modelled as `none`), then removes `W - size` seams.  The
trailing shape assert always holds and is not modelled. -/
def reduce (a : Arr RGB) (size : ℤ) : Option (Arr RGB) :=
  let W : ℤ := (widthOf a.data : ℤ)
  if ¬ (W > size) then none
  else if ¬ (size > 0) then none
  else iterOpt (carveStep a.data.length) (W - size).toNat a

/-- The label-stamping step of `find_seams`:
`assert np.all(seams[arange(H), indices[arange(H), seam]] == 0)` (modelled as
`none` on failure) followed by
`seams[arange(H), indices[arange(H), seam]] = i + 1`. -/
def stampSeam (seams : Mat ℤ) (indices : Mat ℕ) (seam : List ℕ) (lab : ℤ) :
    Option (Mat ℤ) :=
  let H := seams.length
  let orig := fun r => (indices.getD r []).getD (seam.getD r 0) 0
  if (List.range H).all (fun r => decide ((seams.getD r []).getD (orig r) 0 = 0))
  then some ((List.range H).map (fun r => (seams.getD r []).set (orig r) lab))
  else none

/-- Iteration `i` of `find_seams`: extract the optimal seam of the current
image, remove it from the image, stamp label `i+1` at the original positions
(read off the index map before it shrinks), remove the seam from the index
map. -/
def find_seamsStep (i : ℕ) (st : Arr RGB × Mat ℕ × Mat ℤ) :
    Option (Arr RGB × Mat ℕ × Mat ℤ) := do
  let energy ← energy_function st.1.data
  let seam := (optSeam st.1.data.length energy).map Int.toNat
  let seams2 ← stampSeam st.2.2 st.2.1 seam ((i : ℤ) + 1)
  pure (remove_seamA st.1 seam, remove_seam st.2.1 seam, seams2)

def fsLoop : ℕ → ℕ → (Arr RGB × Mat ℕ × Mat ℤ) → Option (Arr RGB × Mat ℕ × Mat ℤ)
  | 0, _, st => some st
  | n + 1, i, st => (find_seamsStep i st).bind (fsLoop n (i + 1))

/-- `find_seams(image, k)` (default `axis=1`): requires `W > k` (assert,
modelled as `none`), starts from the index map `np.tile(range(W), (H, 1))` and
an all-zero label grid, and runs k extraction iterations. -/
def find_seams (img : Arr RGB) (k : ℕ) : Option (Mat ℤ) :=
  let H := img.data.length
  let W := widthOf img.data
  if ¬ (W > k) then none
  else
    let indices : Mat ℕ := (List.range H).map (fun _ => List.range W)
    let seams : Mat ℤ := (List.range H).map (fun _ => (List.range W).map (fun _ => 0))
    (fsLoop k 0 (img, indices, seams)).map (fun st => st.2.2)

/-- `col` of `row, col = np.where(seams_matrix == lab)`: the column indices of
all matching cells in row-major order. -/
def whereCols (m : Mat ℤ) (lab : ℤ) : List ℕ :=
  (m.map (fun row =>
    (List.range row.length).filter (fun j => decide (row.getD j 0 = lab)))).flatten

/-- The duplication loop of `enlarge`: duplicate the seam labelled `lab` in
both the image and the (live, growing) label grid, for `lab = 1..num_it`.
The label grid pass (`dfunc(seams_matrix[:,:,np.newaxis], col)` then dropping
the channel axis) is `duplicate_seam` with integer cells; its values are
preserved exactly by the float64 conversion, which the `ℚ`-valued model
absorbs. -/
def enlLoop : ℕ → ℤ → (Arr RGB × Mat ℤ) → Arr RGB × Mat ℤ
  | 0, _, st => st
  | n + 1, lab, st =>
    let col := whereCols st.2 lab
    enlLoop n (lab + 1) (duplicate_seamA st.1 col, duplicate_seam st.2 col)

/-- `enlarge(image, size)` (default `axis=1`): requires `size > W` and
`size ≤ 2 W` (asserts, modelled as `none`), then finds `size - W` seams and
duplicates them in increasing label order. -/
def enlarge (a : Arr RGB) (size : ℤ) : Option (Arr RGB) :=
  let W : ℤ := (widthOf a.data : ℤ)
  if ¬ (size > W) then none
  else if ¬ (size ≤ 2 * W) then none
  else do
    let num_it := (size - W).toNat
    let sm ← find_seams a num_it
    pure (enlLoop num_it 1 (a, sm)).1

def gAt (g : Mat ℚ) (i j : ℕ) : ℚ := (g.getD i []).getD j 0

/-- The three stacked candidates of `compute_forward_cost` at `(i, j)`:
interior columns get the full forward terms, column 0 has an infinite left
candidate, column W-1 an infinite right candidate.  Faithful for `W ≥ 2`
(the source raises an `IndexError` at `cost_padded[i-1, j+1]` when `W = 1`). -/
def fwdCands (g : Mat ℚ) (prev : List ℚ) (i j W : ℕ) :
    WithTop ℚ × WithTop ℚ × WithTop ℚ :=
  if 0 < j ∧ j < W - 1 then
    (((prev.getD (j-1) 0 + |gAt g i (j+1) - gAt g i (j-1)| +
        |gAt g (i-1) j - gAt g i (j-1)| : ℚ) : WithTop ℚ),
     ((prev.getD j 0 + |gAt g i (j+1) - gAt g i (j-1)| : ℚ) : WithTop ℚ),
     ((prev.getD (j+1) 0 + |gAt g i (j+1) - gAt g i (j-1)| +
        |gAt g (i-1) j - gAt g i (j+1)| : ℚ) : WithTop ℚ))
  else if j = 0 then
    (⊤, ((prev.getD j 0 : ℚ) : WithTop ℚ),
     ((prev.getD (j+1) 0 + |gAt g (i-1) j - gAt g i (j+1)| : ℚ) : WithTop ℚ))
  else
    (((prev.getD (j-1) 0 + |gAt g (i-1) j - gAt g i (j-1)| : ℚ) : WithTop ℚ),
     ((prev.getD j 0 : ℚ) : WithTop ℚ), ⊤)

def fwdCell (g : Mat ℚ) (prev erow : List ℚ) (i j W : ℕ) : ℚ × ℤ :=
  let c := fwdCands g prev i j W
  let p := pick3 c.1 c.2.1 c.2.2
  (p.1.untop' 0 + erow.getD j 0, p.2)

def fwdRow (g : Mat ℚ) (prev erow : List ℚ) (i W : ℕ) : List ℚ × List ℤ :=
  ((List.range W).map fun j => (fwdCell g prev erow i j W).1,
   (List.range W).map fun j => (fwdCell g prev erow i j W).2)

def fwdRows (g : Mat ℚ) (energy : Mat ℚ) (W : ℕ) :
    ℕ → ℕ → List ℚ → Mat ℚ × Mat ℤ
  | 0, _, _ => ([], [])
  | n + 1, i, prev =>
    let c := fwdRow g prev (energy.getD i []) i W
    let rest := fwdRows g energy W n (i + 1) c.1
    (c.1 :: rest.1, c.2 :: rest.2)

/-- Row 0 of the forward cost (source lines 365-368): row 0 of the energy PLUS
the horizontal forward term `|I(0, j+1) - I(0, j-1)|` at every interior
column. -/
def fwdRow0 (g : Mat ℚ) (energy : Mat ℚ) : List ℚ :=
  (List.range (widthOf g)).map (fun j =>
    (energy.getD 0 []).getD j 0 +
      (if 0 < j ∧ j < widthOf g - 1 then |gAt g 0 (j+1) - gAt g 0 (j-1)| else 0))

/-- `compute_forward_cost(image, energy)`: works on the grayscale image; note
that row 0 of the cost is NOT row 0 of the energy (see `fwdRow0`). -/
def compute_forward_cost (img : Mat RGB) (energy : Mat ℚ) : Mat ℚ × Mat ℤ :=
  let g := rgb2gray img
  let H := g.length
  let W := widthOf g
  if H = 0 then ([], [])
  else
    let rest := fwdRows g energy W (H - 1) 1 (fwdRow0 g energy)
    (fwdRow0 g energy :: rest.1, ((List.range W).map (fun _ => (0 : ℤ))) :: rest.2)

/-- The masked-energy override of `remove_object`: every masked pixel's energy
is forced to the sentinel -100000. -/
def maskEnergy (mask : Mat Bool) (e : Mat ℚ) : Mat ℚ :=
  (List.range e.length).map (fun i =>
    (List.range (e.getD i []).length).map (fun j =>
      if (mask.getD i []).getD j false then -100000 else (e.getD i []).getD j 0))

/-- One pass of the removal loop of `remove_object`: like `carveStep` but with
the masked energy. -/
def carveStepMasked (H : ℕ) (mask : Mat Bool) (a : Arr RGB) : Option (Arr RGB) := do
  let energy ← energy_function a.data
  pure (remove_seamA a ((optSeam H (maskEnergy mask energy)).map Int.toNat))

/-- `remove_object(image, mask)`: shape assert, then `max(row sums of mask) +
30` seam-removal passes with masked energy, then `enlarge` back to the
original width.  The trailing shape assert holds whenever `enlarge`
succeeds and is not modelled. -/
def remove_object (a : Arr RGB) (mask : Mat Bool) : Option (Arr RGB) :=
  if ¬ (a.data.length = mask.length ∧ widthOf a.data = widthOf mask) then none
  else
    let H := a.data.length
    let W := widthOf a.data
    let n := mask.map (fun row => row.countP id)
    let remove_size := n.foldl max 0
    (iterOpt (carveStepMasked H mask) (remove_size + 30) a).bind
      (fun out => enlarge out (W : ℤ))



/-! ### Generic list lemmas -/

theorem getD_range_map (f : ℕ → α) (d : α) {j n : ℕ} (hj : j < n) :
    ((List.range n).map f).getD j d = f j := by
  rw [List.getD_eq_getElem?_getD, List.getElem?_map, List.getElem?_range hj]
  rfl

theorem length_range_map (f : ℕ → α) (n : ℕ) :
    ((List.range n).map f).length = n := by simp

theorem map_getD_range (l : List α) (d : α) :
    (List.range l.length).map (fun j => l.getD j d) = l := by
  apply List.ext_getElem
  · simp
  · intro i h1 h2
    simp only [List.getElem_map, List.getElem_range]
    rw [List.getD_eq_getElem _ _ h2]

theorem getD_eq_getElem_of_lt (l : List α) (d : α) {j : ℕ} (h : j < l.length) :
    l.getD j d = l[j] := List.getD_eq_getElem l d h

theorem mapOpt_some (f : α → Option β) (P : β → Prop) :
    ∀ (l : List α), (∀ x ∈ l, ∃ y, f x = some y ∧ P y) →
      ∃ ys, mapOpt f l = some ys ∧ ys.length = l.length ∧ ∀ y ∈ ys, P y
  | [], _ => ⟨[], rfl, rfl, by simp⟩
  | x :: xs, h => by
    obtain ⟨y, hy, hPy⟩ := h x (by simp)
    obtain ⟨ys, hys, hlen, hP⟩ := mapOpt_some f P xs (fun z hz => h z (by simp [hz]))
    exact ⟨y :: ys, by simp [mapOpt, hy, hys], by simp [hlen], by
      intro z hz
      rcases List.mem_cons.mp hz with h1 | h1
      · exact h1 ▸ hPy
      · exact hP z h1⟩

theorem IsRect.length {m : Mat α} {H W : ℕ} (h : IsRect m H W) : m.length = H := h.1

theorem IsRect.rowLen {m : Mat α} {H W : ℕ} (h : IsRect m H W) {r : List α}
    (hr : r ∈ m) : r.length = W := h.2 r hr

theorem IsRect.getD_length {m : Mat α} {H W : ℕ} (h : IsRect m H W) {i : ℕ}
    (hi : i < H) : (m.getD i []).length = W := by
  have hi' : i < m.length := h.1 ▸ hi
  rw [getD_eq_getElem_of_lt _ _ hi']
  exact h.2 _ (List.getElem_mem hi')

theorem widthOf_eq {m : Mat α} {H W : ℕ} (h : IsRect m H W) (hH : 0 < H) :
    widthOf m = W := by
  cases m with
  | nil => simp [IsRect] at h; omega
  | cons r rs =>
    exact h.2 r (by simp)

/-! ### Shape of transposeQ and the gradients -/

theorem transposeQ_rect {m : Mat ℚ} {H W : ℕ} (h : IsRect m H W) (hH : 0 < H) :
    IsRect (transposeQ m) W H := by
  constructor
  · simp [transposeQ, widthOf_eq h hH]
  · intro r hr
    simp only [transposeQ] at hr
    obtain ⟨j, _, rfl⟩ := List.mem_map.mp hr
    simp [h.1]

theorem grad1_some {a : List ℚ} (h : 2 ≤ a.length) :
    ∃ r, grad1 a = some r ∧ r.length = a.length := by
  unfold grad1
  rw [if_neg (by omega)]
  exact ⟨_, rfl, by simp⟩

theorem gradAxis1_some {m : Mat ℚ} {H W : ℕ} (h : IsRect m H W) (hW : 2 ≤ W) :
    ∃ r, gradAxis1 m = some r ∧ IsRect r H W := by
  obtain ⟨ys, hys, hlen, hP⟩ := mapOpt_some grad1 (fun y => y.length = W) m
    (fun x hx => by
      obtain ⟨r, hr, hrl⟩ := grad1_some (a := x) (by rw [h.rowLen hx]; exact hW)
      refine ⟨r, hr, ?_⟩
      show r.length = W
      rw [hrl, h.rowLen hx])
  exact ⟨ys, hys, hlen.trans h.1, hP⟩

theorem gradAxis0_some {m : Mat ℚ} {H W : ℕ} (h : IsRect m H W) (hH : 2 ≤ H)
    (hW : 0 < W) : ∃ r, gradAxis0 m = some r ∧ IsRect r H W := by
  have ht : IsRect (transposeQ m) W H := transposeQ_rect h (by omega)
  obtain ⟨c, hc, hcr⟩ := gradAxis1_some ht hH
  refine ⟨transposeQ c, ?_, transposeQ_rect hcr hW⟩
  simp only [gradAxis0, gradAxis1] at hc ⊢
  rw [hc]
  rfl

theorem zipWith2D_rect {a b : Mat ℚ} {H W : ℕ} (f : ℚ → ℚ → ℚ)
    (ha : IsRect a H W) (hb : IsRect b H W) :
    IsRect (List.zipWith (fun r0 r1 => List.zipWith f r0 r1) a b) H W := by
  constructor
  · simp [ha.1, hb.1]
  · intro r hr
    obtain ⟨i, hi, rfl⟩ := List.mem_iff_getElem.mp hr
    rw [List.getElem_zipWith]
    have hia : i < a.length := by simp at hi; omega
    have hib : i < b.length := by simp at hi; omega
    simp [ha.rowLen (List.getElem_mem hia), hb.rowLen (List.getElem_mem hib)]

theorem energy_function_some {img : Mat RGB} {H W : ℕ} (h : IsRect img H W)
    (hH : 2 ≤ H) (hW : 2 ≤ W) :
    ∃ e, energy_function img = some e ∧ IsRect e H W := by
  have hg : IsRect (rgb2gray img) H W := by
    constructor
    · simp [rgb2gray, h.1]
    · intro r hr
      obtain ⟨x, hx, rfl⟩ := List.mem_map.mp hr
      simp [h.rowLen hx]
  obtain ⟨a0, ha0, ha0r⟩ := gradAxis0_some hg hH (by omega)
  obtain ⟨a1, ha1, ha1r⟩ := gradAxis1_some hg hW
  have hr := zipWith2D_rect (fun x y => |x| + |y|) ha0r ha1r
  refine ⟨_, ?_, hr⟩
  simp [energy_function, ha0, ha1]

/-! ### Structure of compute_cost -/

theorem costRows_length (prev : List ℚ) (rs : List (List ℚ)) :
    (costRows prev rs).1.length = rs.length ∧
    (costRows prev rs).2.length = rs.length := by
  induction rs generalizing prev with
  | nil => simp [costRows]
  | cons e rs ih =>
    simp only [costRows, List.length_cons]
    exact ⟨by rw [(ih _).1], by rw [(ih _).2]⟩

theorem costRowStep_lengths (prev erow : List ℚ) :
    (costRowStep prev erow).1.length = erow.length ∧
    (costRowStep prev erow).2.length = erow.length := by
  simp [costRowStep]

theorem costRows_rowLen {W : ℕ} (prev : List ℚ) (rs : List (List ℚ))
    (h : ∀ r ∈ rs, r.length = W) :
    (∀ r ∈ (costRows prev rs).1, r.length = W) ∧
    (∀ r ∈ (costRows prev rs).2, r.length = W) := by
  induction rs generalizing prev with
  | nil => simp [costRows]
  | cons e rs ih =>
    have he : e.length = W := h e (by simp)
    have ih2 := ih (costRowStep prev e).1 (fun r hr => h r (by simp [hr]))
    simp only [costRows]
    constructor
    · intro r hr
      rcases List.mem_cons.mp hr with h1 | h1
      · rw [h1, (costRowStep_lengths prev e).1, he]
      · exact ih2.1 r h1
    · intro r hr
      rcases List.mem_cons.mp hr with h1 | h1
      · rw [h1, (costRowStep_lengths prev e).2, he]
      · exact ih2.2 r h1

theorem compute_cost_length (e : Mat ℚ) :
    (compute_cost e).1.length = e.length ∧
    (compute_cost e).2.length = e.length := by
  cases e with
  | nil => simp [compute_cost]
  | cons e0 rest =>
    simp only [compute_cost, List.length_cons]
    exact ⟨by rw [(costRows_length e0 rest).1], by rw [(costRows_length e0 rest).2]⟩

theorem compute_cost_rect {e : Mat ℚ} {H W : ℕ} (h : IsRect e H W) :
    IsRect (compute_cost e).1 H W ∧ IsRect (compute_cost e).2 H W := by
  cases e with
  | nil =>
    have : H = 0 := by simpa [IsRect] using h.1.symm
    subst this
    simp [compute_cost, IsRect]
  | cons e0 rest =>
    have he0 : e0.length = W := h.rowLen (by simp)
    have hrest : ∀ r ∈ rest, r.length = W := fun r hr => h.rowLen (by simp [hr])
    have hr := costRows_rowLen e0 rest hrest
    refine ⟨⟨(compute_cost_length _).1.trans h.1, ?_⟩,
            ⟨(compute_cost_length _).2.trans h.1, ?_⟩⟩
    · intro r hrm
      simp only [compute_cost] at hrm
      rcases List.mem_cons.mp hrm with h1 | h1
      · rw [h1, he0]
      · exact hr.1 r h1
    · intro r hrm
      simp only [compute_cost] at hrm
      rcases List.mem_cons.mp hrm with h1 | h1
      · rw [h1]; simp [he0]
      · exact hr.2 r h1

theorem compute_cost_row0 (e0 : List ℚ) (rest : List (List ℚ)) :
    (compute_cost (e0 :: rest)).1.getD 0 [] = e0 ∧
    (compute_cost (e0 :: rest)).2.getD 0 [] = e0.map (fun _ => (0 : ℤ)) := by
  simp [compute_cost]

theorem costRows_getD (rs : List (List ℚ)) :
    ∀ (prev : List ℚ) (i : ℕ), i < rs.length →
    (costRows prev rs).1.getD i [] =
      (costRowStep (if i = 0 then prev else (costRows prev rs).1.getD (i - 1) [])
        (rs.getD i [])).1 ∧
    (costRows prev rs).2.getD i [] =
      (costRowStep (if i = 0 then prev else (costRows prev rs).1.getD (i - 1) [])
        (rs.getD i [])).2 := by
  induction rs with
  | nil => intro prev i hi; simp at hi
  | cons e rs ih =>
    intro prev i hi
    match i with
    | 0 => simp [costRows]
    | Nat.succ j =>
      have hj : j < rs.length := by simpa using hi
      have := ih (costRowStep prev e).1 j hj
      simp only [costRows, List.getD_cons_succ]
      match j with
      | 0 => simpa using this
      | Nat.succ j2 => simpa using this

theorem compute_cost_step {e : Mat ℚ} (i : ℕ) (hi : i + 1 < e.length) :
    (compute_cost e).1.getD (i + 1) [] =
      (costRowStep ((compute_cost e).1.getD i []) (e.getD (i + 1) [])).1 ∧
    (compute_cost e).2.getD (i + 1) [] =
      (costRowStep ((compute_cost e).1.getD i []) (e.getD (i + 1) [])).2 := by
  cases e with
  | nil => simp at hi
  | cons e0 rest =>
    have hi' : i < rest.length := by simpa using hi
    have h := costRows_getD rest e0 i hi'
    simp only [compute_cost, List.getD_cons_succ]
    match i with
    | 0 => simpa using h
    | Nat.succ j => simpa using h

/-! ### Direction values of compute_cost -/

theorem atZ_out {r : List ℚ} {j : ℤ} (h : j < 0 ∨ (r.length : ℤ) ≤ j) :
    atZ r j = ⊤ := by
  unfold atZ
  rw [if_neg]
  omega

theorem atZ_in {r : List ℚ} {j : ℤ} (h0 : 0 ≤ j) (h : j < (r.length : ℤ)) :
    atZ r j = ((r.getD j.toNat 0 : ℚ) : WithTop ℚ) := by
  unfold atZ
  rw [if_pos ⟨h0, h⟩]

theorem costStepCell_dir (prev : List ℚ) (e : ℚ) (j : ℕ) (hj : j < prev.length) :
    -1 ≤ (costStepCell prev e j).2 ∧ (costStepCell prev e j).2 ≤ 1 ∧
    (j = 0 → 0 ≤ (costStepCell prev e j).2) ∧
    (j + 1 = prev.length → (costStepCell prev e j).2 ≤ 0) := by
  have hc1 : atZ prev (j : ℤ) ≠ ⊤ := by
    rw [atZ_in (by omega) (by omega)]
    exact WithTop.coe_ne_top
  unfold costStepCell pick3
  dsimp only
  split_ifs with h1 h2
  · refine ⟨by norm_num, by norm_num, ?_, by norm_num⟩
    intro hj0
    exfalso
    apply hc1
    have : atZ prev ((j : ℤ) - 1) = ⊤ := by
      apply atZ_out; left; omega
    rw [this] at h1
    exact top_le_iff.mp h1.1
  · exact ⟨by norm_num, by norm_num, fun _ => le_refl _, fun _ => le_refl _⟩
  · refine ⟨by norm_num, by norm_num, fun _ => by norm_num, ?_⟩
    intro hjW
    exfalso
    apply h2
    have : atZ prev ((j : ℤ) + 1) = ⊤ := by
      apply atZ_out; right; omega
    rw [this]
    exact le_top

/-- Direction-row well-formedness: entry bounds plus the border constraints
that keep a backtracked seam inside the grid. -/
def StepOK (row : List ℤ) (W : ℕ) : Prop :=
  row.length = W ∧ ∀ p : ℕ, p < W →
    -1 ≤ row.getD p 0 ∧ row.getD p 0 ≤ 1 ∧
    (p = 0 → 0 ≤ row.getD p 0) ∧ (p + 1 = W → row.getD p 0 ≤ 0)

theorem stepOK_zero_row {W : ℕ} (e0 : List ℚ) (h : e0.length = W) :
    StepOK (e0.map (fun _ => (0 : ℤ))) W := by
  constructor
  · simp [h]
  · intro p hp
    have hplen : p < (e0.map (fun _ => (0 : ℤ))).length := by simp [h]; omega
    rw [getD_eq_getElem_of_lt _ _ hplen]
    simp

theorem costRowStep_stepOK {W : ℕ} (prev erow : List ℚ)
    (hprev : prev.length = W) (herow : erow.length = W) :
    StepOK (costRowStep prev erow).2 W := by
  constructor
  · rw [(costRowStep_lengths prev erow).2, herow]
  · intro p hp
    have : (costRowStep prev erow).2.getD p 0 =
        (costStepCell prev (erow.getD p 0) p).2 := by
      simp only [costRowStep]
      rw [getD_range_map _ _ (by omega : p < erow.length)]
    rw [this]
    have := costStepCell_dir prev (erow.getD p 0) p (by omega)
    exact ⟨this.1, this.2.1, this.2.2.1, fun h => this.2.2.2 (by omega)⟩

theorem compute_cost_paths_ok {e : Mat ℚ} {H W : ℕ} (h : IsRect e H W) :
    ∀ i, i < H → StepOK ((compute_cost e).2.getD i []) W := by
  intro i hi
  cases e with
  | nil => simp [IsRect] at h; omega
  | cons e0 rest =>
    have he0 : e0.length = W := h.rowLen (by simp)
    match i with
    | 0 =>
      rw [(compute_cost_row0 e0 rest).2]
      exact stepOK_zero_row e0 he0
    | Nat.succ i' =>
      have hi2 : i' + 1 < (e0 :: rest).length := h.1 ▸ hi
      rw [(compute_cost_step i' hi2).2]
      apply costRowStep_stepOK
      · exact ((compute_cost_rect h).1).getD_length (by omega)
      · exact h.getD_length hi

/-! ### argmin -/

theorem argminQ_lt_length : ∀ (l : List ℚ), 0 < l.length → argminQ l < l.length := by
  intro l
  induction l with
  | nil => simp
  | cons x xs ih =>
    intro _
    unfold argminQ
    split_ifs with h
    · simp
    · have hxs : xs ≠ [] := by
        intro he
        rw [he] at h
        simp at h
      have hlen : 0 < xs.length := List.length_pos.mpr hxs
      have := ih hlen
      simp only [List.length_cons]
      omega

/-! ### Backtracking -/

theorem idxWrap_eq {r : List ℤ} {p : ℤ} (h0 : 0 ≤ p) (h : p < (r.length : ℤ)) :
    idxWrap r p = r.getD p.toNat 0 := by
  unfold idxWrap
  rw [Int.emod_eq_of_lt h0 h]

theorem stepOK_next {W : ℕ} {r : List ℤ} (hr : StepOK r W) {p : ℤ}
    (h0 : 0 ≤ p) (hW : p < (W : ℤ)) :
    0 ≤ p + idxWrap r p ∧ p + idxWrap r p < (W : ℤ) := by
  have hlen : (r.length : ℤ) = (W : ℤ) := by rw [hr.1]
  rw [idxWrap_eq h0 (by omega)]
  have hp : p.toNat < W := by omega
  obtain ⟨hd1, hd2, hd3, hd4⟩ := hr.2 p.toNat hp
  have hpn : ((p.toNat : ℤ)) = p := Int.toNat_of_nonneg h0
  by_cases hz : p.toNat = 0
  · have h3 := hd3 hz
    by_cases hW1 : p.toNat + 1 = W
    · have h4 := hd4 hW1
      omega
    · omega
  · by_cases hW1 : p.toNat + 1 = W
    · have h4 := hd4 hW1
      omega
    · omega

theorem btAux_length : ∀ (rows : Mat ℤ) (p : ℤ), (btAux rows p).length = rows.length
  | [], _ => rfl
  | _ :: rs, p => by simp [btAux, btAux_length rs]

theorem btAux_bounds {W : ℕ} : ∀ (rows : Mat ℤ) (p : ℤ),
    (∀ r ∈ rows, StepOK r W) → 0 ≤ p → p < (W : ℤ) →
    ∀ q ∈ btAux rows p, 0 ≤ q ∧ q < (W : ℤ)
  | [], _, _, _, _ => by simp [btAux]
  | r :: rs, p, hrows, h0, hW => by
    intro q hq
    rcases List.mem_cons.mp hq with h1 | h1
    · exact h1 ▸ ⟨h0, hW⟩
    · have hnext := stepOK_next (hrows r (by simp)) h0 hW
      exact btAux_bounds rs _ (fun r2 hr2 => hrows r2 (by simp [hr2]))
        hnext.1 hnext.2 q h1

theorem btAux_getD_zero (r : List ℤ) (rs : Mat ℤ) (p : ℤ) :
    (btAux (r :: rs) p).getD 0 0 = p := rfl

theorem btAux_step : ∀ (rows : Mat ℤ) (p : ℤ) (k : ℕ), k + 1 < rows.length →
    (btAux rows p).getD (k + 1) 0 =
      (btAux rows p).getD k 0 + idxWrap (rows.getD k []) ((btAux rows p).getD k 0)
  | [], _, _, h => by simp at h
  | r :: rs, p, 0, h => by
    match rs, h with
    | r2 :: rs2, _ =>
      simp only [btAux, List.getD_cons_succ, List.getD_cons_zero]
  | r :: rs, p, Nat.succ k, h => by
    have := btAux_step rs (p + idxWrap r p) k (by simpa using h)
    simpa [btAux] using this

theorem getD_reverse {l : List α} {i : ℕ} (h : i < l.length) (d : α) :
    l.reverse.getD i d = l.getD (l.length - 1 - i) d := by
  have h1 : i < l.reverse.length := by simpa using h
  have h2 : l.length - 1 - i < l.length := by omega
  rw [getD_eq_getElem_of_lt _ _ h1, getD_eq_getElem_of_lt _ _ h2]
  exact List.getElem_reverse h1

theorem backtrack_seam_spec {W : ℕ} (paths : Mat ℤ) (e : ℤ)
    (hrows : ∀ r ∈ paths, StepOK r W) (hH : 0 < paths.length)
    (h0 : 0 ≤ e) (hW : e < (W : ℤ)) :
    (backtrack_seam paths e).length = paths.length ∧
    (backtrack_seam paths e).getD (paths.length - 1) 0 = e ∧
    (∀ q ∈ backtrack_seam paths e, 0 ≤ q ∧ q < (W : ℤ)) ∧
    (∀ i, i + 1 < paths.length →
      (backtrack_seam paths e).getD i 0 =
        (backtrack_seam paths e).getD (i + 1) 0 +
          idxWrap (paths.getD (i + 1) []) ((backtrack_seam paths e).getD (i + 1) 0)) := by
  have hrev : ∀ r ∈ paths.reverse, StepOK r W := by
    intro r hr
    exact hrows r (List.mem_reverse.mp hr)
  have hblen : (btAux paths.reverse e).length = paths.length := by
    rw [btAux_length]; simp
  have hlen : (backtrack_seam paths e).length = paths.length := by
    unfold backtrack_seam
    simp [hblen]
  refine ⟨hlen, ?_, ?_, ?_⟩
  · unfold backtrack_seam
    have hb1 : paths.length - 1 < (btAux paths.reverse e).length := by
      rw [hblen]; omega
    rw [getD_reverse hb1 0, hblen]
    have hidx : paths.length - 1 - (paths.length - 1) = 0 := by omega
    rw [hidx]
    cases hrevs : paths.reverse with
    | nil =>
      exfalso
      have := congrArg List.length hrevs
      simp only [List.length_reverse, List.length_nil] at this
      omega
    | cons r rs =>
      exact btAux_getD_zero r rs e
  · intro q hq
    unfold backtrack_seam at hq
    exact btAux_bounds paths.reverse e hrev h0 hW q (List.mem_reverse.mp hq)
  · intro i hi
    unfold backtrack_seam
    have hi1 : i < (btAux paths.reverse e).length := by rw [hblen]; omega
    have hi2 : i + 1 < (btAux paths.reverse e).length := by rw [hblen]; omega
    rw [getD_reverse hi1 0, getD_reverse hi2 0, hblen]
    have hk : paths.length - 1 - i = (paths.length - 1 - (i + 1)) + 1 := by omega
    rw [hk]
    have hstep := btAux_step paths.reverse e (paths.length - 1 - (i + 1))
      (by rw [List.length_reverse]; omega)
    rw [hstep]
    have hri : paths.reverse.getD (paths.length - 1 - (i + 1)) [] =
        paths.getD (i + 1) [] := by
      rw [getD_reverse (by omega) []]
      congr 1
      omega
    rw [hri]

/-! ### remove_seam and duplicate_seam rows -/

theorem remove_seam_row_eq {row : List α} {s : ℕ} (h : s < row.length) :
    remove_seam_row row s = row.take s ++ row.drop (s + 1) := by
  unfold remove_seam_row
  congr 2
  omega

theorem length_remove_seam_row {row : List α} {s : ℕ} (h : s < row.length) :
    (remove_seam_row row s).length = row.length - 1 := by
  rw [remove_seam_row_eq h]
  simp
  omega

theorem remove_seam_row_getD {row : List α} {s : ℕ} (h : s < row.length) (d : α)
    {j : ℕ} (hj : j < row.length - 1) :
    (remove_seam_row row s).getD j d =
      if j < s then row.getD j d else row.getD (j + 1) d := by
  rw [remove_seam_row_eq h]
  have hts : (row.take s).length = s := by
    rw [List.length_take]; omega
  have hlen : (row.take s ++ row.drop (s + 1)).length = row.length - 1 := by
    simp; omega
  rw [getD_eq_getElem_of_lt _ _ (by omega : j < (row.take s ++ row.drop (s + 1)).length)]
  rw [List.getElem_append]
  split_ifs with h1 h2 h3
  · rw [List.getElem_take]
    exact (getD_eq_getElem_of_lt _ _ (by omega)).symm
  · exfalso; omega
  · exfalso; omega
  · rw [List.getElem_drop]
    rw [getD_eq_getElem_of_lt _ _ (by omega : j + 1 < row.length)]
    congr 1
    omega

theorem duplicate_seam_row_eq [Zero α] {row : List α} {s : ℕ} (h : s < row.length) :
    duplicate_seam_row row s = row.take (s + 1) ++ row.drop s := by
  unfold duplicate_seam_row
  rw [if_pos h]

theorem length_duplicate_seam_row [Zero α] {row : List α} {s : ℕ} (h : s < row.length) :
    (duplicate_seam_row row s).length = row.length + 1 := by
  rw [duplicate_seam_row_eq h]
  simp
  omega

theorem duplicate_seam_row_getD [Zero α] {row : List α} {s : ℕ} (h : s < row.length)
    (d : α) {j : ℕ} (hj : j < row.length + 1) :
    (duplicate_seam_row row s).getD j d =
      if j ≤ s then row.getD j d else row.getD (j - 1) d := by
  rw [duplicate_seam_row_eq h]
  have hts : (row.take (s + 1)).length = s + 1 := by
    rw [List.length_take]; omega
  have hlen : (row.take (s + 1) ++ row.drop s).length = row.length + 1 := by
    simp; omega
  rw [getD_eq_getElem_of_lt _ _ (by omega : j < (row.take (s + 1) ++ row.drop s).length)]
  rw [List.getElem_append]
  split_ifs with h1 h2 h3
  · rw [List.getElem_take]
    exact (getD_eq_getElem_of_lt _ _ (by omega)).symm
  · exfalso; omega
  · exfalso; omega
  · rw [List.getElem_drop]
    rw [getD_eq_getElem_of_lt _ _ (by omega : j - 1 < row.length)]
    congr 1
    omega

theorem remove_seam_getD_row {img : Mat α} {seam : List ℕ} {i : ℕ}
    (hi : i < img.length) (hi2 : i < seam.length) :
    (remove_seam img seam).getD i [] =
      remove_seam_row (img.getD i []) (seam.getD i 0) := by
  unfold remove_seam
  rw [getD_eq_getElem_of_lt _ _ (by simp; omega), List.getElem_zipWith]
  rw [getD_eq_getElem_of_lt _ _ hi, getD_eq_getElem_of_lt _ _ hi2]

theorem duplicate_seam_getD_row [Zero α] {img : Mat α} {seam : List ℕ} {i : ℕ}
    (hi : i < img.length) (hi2 : i < seam.length) :
    (duplicate_seam img seam).getD i [] =
      duplicate_seam_row (img.getD i []) (seam.getD i 0) := by
  unfold duplicate_seam
  rw [getD_eq_getElem_of_lt _ _ (by simp; omega), List.getElem_zipWith]
  rw [getD_eq_getElem_of_lt _ _ hi, getD_eq_getElem_of_lt _ _ hi2]

theorem remove_seam_rect {img : Mat α} {seam : List ℕ} {H W : ℕ}
    (h : IsRect img H W) (hlen : seam.length = H)
    (hs : ∀ i, i < H → seam.getD i 0 < W) :
    IsRect (remove_seam img seam) H (W - 1) := by
  constructor
  · unfold remove_seam
    simp [h.1, hlen]
  · intro r hr
    obtain ⟨i, hi, rfl⟩ := List.mem_iff_getElem.mp hr
    have hiH : i < H := by
      unfold remove_seam at hi
      simp [h.1, hlen] at hi
      omega
    rw [← getD_eq_getElem_of_lt _ [] hi,
      remove_seam_getD_row (by rw [h.1]; omega) (by rw [hlen]; omega)]
    rw [length_remove_seam_row (by rw [h.getD_length hiH]; exact hs i hiH)]
    rw [h.getD_length hiH]

theorem duplicate_seam_rect [Zero α] {img : Mat α} {seam : List ℕ} {H W : ℕ}
    (h : IsRect img H W) (hlen : seam.length = H)
    (hs : ∀ i, i < H → seam.getD i 0 < W) :
    IsRect (duplicate_seam img seam) H (W + 1) := by
  constructor
  · unfold duplicate_seam
    simp [h.1, hlen]
  · intro r hr
    obtain ⟨i, hi, rfl⟩ := List.mem_iff_getElem.mp hr
    have hiH : i < H := by
      unfold duplicate_seam at hi
      simp [h.1, hlen] at hi
      omega
    rw [← getD_eq_getElem_of_lt _ [] hi,
      duplicate_seam_getD_row (by rw [h.1]; omega) (by rw [hlen]; omega)]
    rw [length_duplicate_seam_row (by rw [h.getD_length hiH]; exact hs i hiH)]
    rw [h.getD_length hiH]

/-! ### remove_seam_row as a sublist; membership after removal -/

theorem remove_seam_row_sublist {r : List α} {s : ℕ} (h : s < r.length) :
    (remove_seam_row r s).Sublist r := by
  rw [remove_seam_row_eq h]
  conv_rhs => rw [← List.take_append_drop s r, List.drop_eq_getElem_cons h]
  exact List.Sublist.append_left (List.sublist_cons_self _ _) _

theorem mem_remove_seam_row_iff {r : List α} {s : ℕ} (hnd : r.Nodup)
    (h : s < r.length) (c : α) :
    c ∈ remove_seam_row r s ↔ c ∈ r ∧ c ≠ r.getD s c := by
  rw [getD_eq_getElem_of_lt _ _ h]
  have hdecomp : r = r.take s ++ r[s] :: r.drop (s + 1) := by
    conv_lhs => rw [← List.take_append_drop s r, List.drop_eq_getElem_cons h]
  have hnd2 : (r.take s ++ r[s] :: r.drop (s + 1)).Nodup := hdecomp ▸ hnd
  rw [List.nodup_append] at hnd2
  obtain ⟨hnd3, hnd4, hdisj⟩ := hnd2
  rw [List.nodup_cons] at hnd4
  rw [remove_seam_row_eq h]
  constructor
  · intro hc
    rcases List.mem_append.mp hc with h1 | h1
    · refine ⟨by rw [hdecomp]; exact List.mem_append.mpr (Or.inl h1), ?_⟩
      intro he
      exact hdisj h1 (he ▸ List.mem_cons_self _ _)
    · refine ⟨by rw [hdecomp]; exact List.mem_append.mpr (Or.inr (List.mem_cons_of_mem _ h1)), ?_⟩
      intro he
      exact hnd4.1 (he ▸ h1)
  · rintro ⟨hc, hne⟩
    rw [hdecomp] at hc
    rcases List.mem_append.mp hc with h1 | h1
    · exact List.mem_append.mpr (Or.inl h1)
    · rcases List.mem_cons.mp h1 with h2 | h2
      · exact absurd h2 hne
      · exact List.mem_append.mpr (Or.inr h2)

theorem getD_map_toNat (l : List ℤ) (r : ℕ) (h : r < l.length) :
    (l.map Int.toNat).getD r 0 = (l.getD r 0).toNat := by
  rw [getD_eq_getElem_of_lt _ _ (by simp [h]), List.getElem_map,
    getD_eq_getElem_of_lt _ _ h]

/-! ### The optimal-seam pipeline of one carving iteration -/

/-- The seam extracted by one iteration (energy already computed): length H,
all entries in `[0, W)`. -/
theorem optSeam_spec {energy : Mat ℚ} {H W : ℕ} (hE : IsRect energy H W)
    (hH : 0 < H) (hW : 0 < W) :
    (optSeam H energy).length = H ∧
    (∀ q ∈ optSeam H energy, 0 ≤ q ∧ q < (W : ℤ)) := by
  unfold optSeam
  have hcr := compute_cost_rect hE
  have hlast : ((compute_cost energy).1.getD (H - 1) []).length = W :=
    hcr.1.getD_length (by omega)
  have hend : argminQ ((compute_cost energy).1.getD (H - 1) []) < W := by
    have := argminQ_lt_length ((compute_cost energy).1.getD (H - 1) []) (by omega)
    omega
  have hrows : ∀ r ∈ (compute_cost energy).2, StepOK r W := by
    intro r hr
    obtain ⟨i, hi, rfl⟩ := List.mem_iff_getElem.mp hr
    have hiH : i < H := by
      have := hcr.2.1
      omega
    rw [← getD_eq_getElem_of_lt _ [] hi]
    exact compute_cost_paths_ok hE i hiH
  have hplen : 0 < (compute_cost energy).2.length := by
    rw [hcr.2.1]; omega
  have hspec := backtrack_seam_spec (W := W) (compute_cost energy).2
    ((argminQ ((compute_cost energy).1.getD (H - 1) []) : ℕ) : ℤ)
    hrows hplen (by positivity) (by exact_mod_cast hend)
  exact ⟨hspec.1.trans hcr.2.1, hspec.2.2.1⟩

/-! ### The find_seams loop invariant -/

/-- Invariant of the multi-seam extraction loop after `i` of `k` iterations:
the working image and index map have shrunk to width `W - i`, every index row
is a subsequence of `0..W-1`, a label cell is zero exactly when its column is
still present in the index map, and the labels `1..i` each occur exactly once
per row. -/
structure FSInv (H W i : ℕ) (st : Arr RGB × Mat ℕ × Mat ℤ) : Prop where
  img_rect : IsRect st.1.data H (W - i)
  idx_rect : IsRect st.2.1 H (W - i)
  seams_rect : IsRect st.2.2 H W
  idx_sub : ∀ r ∈ st.2.1, r.Sublist (List.range W)
  corr : ∀ ri, ri < H → ∀ c, c < W →
    (((st.2.2.getD ri []).getD c 0 = 0) ↔ c ∈ st.2.1.getD ri [])
  lab_count : ∀ ri, ri < H → ∀ m : ℤ, 1 ≤ m → m ≤ (i : ℤ) →
    (st.2.2.getD ri []).count m = 1
  lab_range : ∀ ri, ri < H → ∀ v ∈ st.2.2.getD ri [], 0 ≤ v ∧ v ≤ (i : ℤ)

theorem fsInv_init {a : Arr RGB} {H W : ℕ} (h : IsRect a.data H W) :
    FSInv H W 0 (a, (List.range H).map (fun _ => List.range W),
      (List.range H).map (fun _ => (List.range W).map (fun _ => (0 : ℤ)))) := by
  have hidx : ∀ ri, ri < H →
      ((List.range H).map (fun _ => List.range W)).getD ri [] = List.range W :=
    fun ri hri => getD_range_map _ _ hri
  have hseams : ∀ ri, ri < H →
      ((List.range H).map (fun _ => (List.range W).map (fun _ => (0 : ℤ)))).getD ri []
        = (List.range W).map (fun _ => (0 : ℤ)) :=
    fun ri hri => getD_range_map _ _ hri
  constructor
  · simpa using h
  · exact ⟨by simp, by intro r hr; obtain ⟨x, _, rfl⟩ := List.mem_map.mp hr; simp⟩
  · exact ⟨by simp, by intro r hr; obtain ⟨x, _, rfl⟩ := List.mem_map.mp hr; simp⟩
  · intro r hr
    obtain ⟨x, _, rfl⟩ := List.mem_map.mp hr
    exact List.Sublist.refl _
  · intro ri hri c hc
    rw [hidx ri hri, hseams ri hri, getD_range_map _ _ hc]
    simp [List.mem_range, hc]
  · intro ri hri m h1 h2
    omega
  · intro ri hri v hv
    rw [hseams ri hri] at hv
    obtain ⟨x, _, rfl⟩ := List.mem_map.mp hv
    simp

theorem stampSeam_eq {H W i : ℕ} {indices : Mat ℕ} {seams : Mat ℤ}
    {seam : List ℕ} (hIdxRect : IsRect indices H (W - i))
    (hSeamsRect : IsRect seams H W)
    (hIdxSub : ∀ r ∈ indices, r.Sublist (List.range W))
    (hCorr : ∀ ri, ri < H → ∀ c, c < W →
      (((seams.getD ri []).getD c 0 = 0) ↔ c ∈ indices.getD ri []))
    (hsW : ∀ r, r < H → seam.getD r 0 < W - i) :
    stampSeam seams indices seam ((i : ℤ) + 1) =
      some ((List.range seams.length).map fun r =>
        (seams.getD r []).set ((indices.getD r []).getD (seam.getD r 0) 0)
          ((i : ℤ) + 1)) := by
  have hSlen : seams.length = H := hSeamsRect.1
  have horigmem : ∀ r, r < H →
      (indices.getD r []).getD (seam.getD r 0) 0 ∈ indices.getD r [] := by
    intro r hr
    have hlt : seam.getD r 0 < (indices.getD r []).length := by
      rw [hIdxRect.getD_length hr]
      exact hsW r hr
    rw [getD_eq_getElem_of_lt (indices.getD r []) 0 hlt]
    exact List.getElem_mem _
  have hidxmemD : ∀ r, r < H → indices.getD r [] ∈ indices := by
    intro r hr
    have hr2 : r < indices.length := by
      rw [hIdxRect.1]
      exact hr
    rw [getD_eq_getElem_of_lt indices [] hr2]
    exact List.getElem_mem _
  have horiglt : ∀ r, r < H → (indices.getD r []).getD (seam.getD r 0) 0 < W :=
    fun r hr =>
      List.mem_range.mp ((hIdxSub _ (hidxmemD r hr)).subset (horigmem r hr))
  have hzero : ∀ r, r < H →
      (seams.getD r []).getD ((indices.getD r []).getD (seam.getD r 0) 0) 0 = 0 :=
    fun r hr => (hCorr r hr _ (horiglt r hr)).mpr (horigmem r hr)
  have hcond : ((List.range seams.length).all fun r =>
      decide ((seams.getD r []).getD
        ((indices.getD r []).getD (seam.getD r 0) 0) 0 = 0)) = true := by
    rw [List.all_eq_true]
    intro r hr
    rw [decide_eq_true_eq]
    exact hzero r (by rw [← hSlen]; exact List.mem_range.mp hr)
  simp only [stampSeam]
  rw [if_pos hcond]

theorem stamped_corr {W i : ℕ} {idxrow : List ℕ} {srow : List ℤ} {s : ℕ}
    (hnd : idxrow.Nodup) (hlen : s < idxrow.length)
    (hsl : srow.length = W) :
    (∀ c, c < W → ((srow.getD c 0 = 0) ↔ c ∈ idxrow)) →
    ∀ c, c < W →
      (((srow.set (idxrow.getD s 0) ((i : ℤ) + 1)).getD c 0 = 0) ↔
        c ∈ remove_seam_row idxrow s) := by
  intro hcorr c hc
  have hmemiff := mem_remove_seam_row_iff hnd hlen c
  have hgd : idxrow.getD s c = idxrow.getD s 0 := by
    rw [getD_eq_getElem_of_lt idxrow c hlen, getD_eq_getElem_of_lt idxrow 0 hlen]
  rw [hmemiff, hgd]
  have hsetlen : c < (srow.set (idxrow.getD s 0) ((i : ℤ) + 1)).length := by
    rw [List.length_set, hsl]
    exact hc
  by_cases hco : c = idxrow.getD s 0
  · rw [getD_eq_getElem_of_lt _ 0 hsetlen]
    subst hco
    rw [List.getElem_set_self]
    constructor
    · intro h
      exfalso
      omega
    · rintro ⟨-, h⟩
      exact absurd rfl h
  · rw [getD_eq_getElem_of_lt _ 0 hsetlen,
      List.getElem_set_ne (fun he => hco he.symm),
      ← getD_eq_getElem_of_lt srow 0 (by rw [hsl]; exact hc)]
    rw [hcorr c hc]
    constructor
    · intro h
      exact ⟨h, hco⟩
    · rintro ⟨h, -⟩
      exact h

theorem stamped_count {i : ℕ} {srow : List ℤ} {o : ℕ}
    (ho : o < srow.length) (hzero : srow.getD o 0 = 0)
    (hcount : ∀ m : ℤ, 1 ≤ m → m ≤ (i : ℤ) → srow.count m = 1)
    (hrange : ∀ v ∈ srow, 0 ≤ v ∧ v ≤ (i : ℤ)) :
    (∀ m : ℤ, 1 ≤ m → m ≤ (i : ℤ) + 1 →
      (srow.set o ((i : ℤ) + 1)).count m = 1) ∧
    (∀ v ∈ srow.set o ((i : ℤ) + 1), 0 ≤ v ∧ v ≤ (i : ℤ) + 1) := by
  have hcell : srow[o] = (0 : ℤ) := by
    rw [← getD_eq_getElem_of_lt srow 0 ho]
    exact hzero
  constructor
  · intro m h1 h2
    rw [List.count_set _ _ _ _ ho, hcell]
    by_cases hm : m ≤ (i : ℤ)
    · rw [if_neg (by simp only [beq_iff_eq]; omega),
        if_neg (by simp only [beq_iff_eq]; omega)]
      have := hcount m h1 hm
      omega
    · have hnot : m ∉ srow := by
        intro habs
        have := (hrange m habs).2
        omega
      rw [show srow.count m = 0 from List.count_eq_zero.mpr hnot]
      rw [if_neg (by simp only [beq_iff_eq]; omega),
        if_pos (by simp only [beq_iff_eq]; omega)]
  · intro v hv
    rcases List.mem_or_eq_of_mem_set hv with h1 | h1
    · have := hrange v h1
      exact ⟨this.1, by omega⟩
    · subst h1
      exact ⟨by positivity, by omega⟩

theorem find_seamsStep_inv {H W i : ℕ} {st : Arr RGB × Mat ℕ × Mat ℤ}
    (inv : FSInv H W i st) (hH : 2 ≤ H) (hi : i + 2 ≤ W) :
    ∃ st2, find_seamsStep i st = some st2 ∧ FSInv H W (i + 1) st2 := by
  obtain ⟨energy, hE, hErect⟩ := energy_function_some inv.img_rect hH (by omega)
  have HH : st.1.data.length = H := inv.img_rect.1
  obtain ⟨hslen, hsbounds⟩ := optSeam_spec hErect (by omega) (by omega)
  have hslen2 : ((optSeam H energy).map Int.toNat).length = H := by
    simp [hslen]
  have hsW : ∀ r, r < H → ((optSeam H energy).map Int.toNat).getD r 0 < W - i := by
    intro r hr
    rw [getD_map_toNat _ r (by omega)]
    have hmem : (optSeam H energy).getD r 0 ∈ optSeam H energy := by
      rw [getD_eq_getElem_of_lt (optSeam H energy) 0 (by omega)]
      exact List.getElem_mem _
    have := hsbounds _ hmem
    omega
  have hIdxRect : IsRect st.2.1 H (W - i) := inv.idx_rect
  have hSeamsRect : IsRect st.2.2 H W := inv.seams_rect
  have hidxmemD : ∀ r, r < H → st.2.1.getD r [] ∈ st.2.1 := by
    intro r hr
    have hr2 : r < st.2.1.length := by
      rw [hIdxRect.1]
      exact hr
    rw [getD_eq_getElem_of_lt st.2.1 [] hr2]
    exact List.getElem_mem _
  have hnodup : ∀ r, r < H → (st.2.1.getD r []).Nodup :=
    fun r hr => (inv.idx_sub _ (hidxmemD r hr)).nodup (List.nodup_range W)
  have horigmem : ∀ r, r < H →
      (st.2.1.getD r []).getD (((optSeam H energy).map Int.toNat).getD r 0) 0 ∈
        st.2.1.getD r [] := by
    intro r hr
    have hlt : ((optSeam H energy).map Int.toNat).getD r 0 <
        (st.2.1.getD r []).length := by
      rw [hIdxRect.getD_length hr]
      exact hsW r hr
    rw [getD_eq_getElem_of_lt (st.2.1.getD r []) 0 hlt]
    exact List.getElem_mem _
  have horiglt : ∀ r, r < H →
      (st.2.1.getD r []).getD (((optSeam H energy).map Int.toNat).getD r 0) 0 < W :=
    fun r hr =>
      List.mem_range.mp ((inv.idx_sub _ (hidxmemD r hr)).subset (horigmem r hr))
  have hzero : ∀ r, r < H → (st.2.2.getD r []).getD
      ((st.2.1.getD r []).getD (((optSeam H energy).map Int.toNat).getD r 0) 0) 0
        = 0 :=
    fun r hr => (inv.corr r hr _ (horiglt r hr)).mpr (horigmem r hr)
  have hstampeq := stampSeam_eq hIdxRect hSeamsRect inv.idx_sub inv.corr hsW
  refine ⟨(remove_seamA st.1 ((optSeam H energy).map Int.toNat),
    remove_seam st.2.1 ((optSeam H energy).map Int.toNat),
    (List.range st.2.2.length).map fun r =>
      (st.2.2.getD r []).set
        ((st.2.1.getD r []).getD (((optSeam H energy).map Int.toNat).getD r 0) 0)
        ((i : ℤ) + 1)), ?_, ?_⟩
  · unfold find_seamsStep
    rw [hE]
    simp only [Option.bind_eq_bind, Option.some_bind]
    rw [HH, hstampeq]
    rfl
  have hSlen : st.2.2.length = H := hSeamsRect.1
  have hseams2 : ∀ ri, ri < H →
      (((List.range st.2.2.length).map fun r =>
        (st.2.2.getD r []).set
          ((st.2.1.getD r []).getD (((optSeam H energy).map Int.toNat).getD r 0) 0)
          ((i : ℤ) + 1)).getD ri []) =
      (st.2.2.getD ri []).set
        ((st.2.1.getD ri []).getD (((optSeam H energy).map Int.toNat).getD ri 0) 0)
        ((i : ℤ) + 1) := by
    intro ri hri
    exact getD_range_map _ _ (by rw [hSlen]; exact hri)
  have hidx2 : ∀ ri, ri < H →
      (remove_seam st.2.1 ((optSeam H energy).map Int.toNat)).getD ri [] =
      remove_seam_row (st.2.1.getD ri [])
        (((optSeam H energy).map Int.toNat).getD ri 0) := by
    intro ri hri
    exact remove_seam_getD_row (by rw [hIdxRect.1]; exact hri)
      (by rw [hslen2]; exact hri)
  have hsr : ∀ ri, ri < H → ((optSeam H energy).map Int.toNat).getD ri 0 <
      (st.2.1.getD ri []).length := by
    intro ri hri
    rw [hIdxRect.getD_length hri]
    exact hsW ri hri
  constructor
  · have hres := remove_seam_rect inv.img_rect hslen2 hsW
    have harith : W - i - 1 = W - (i + 1) := by omega
    rw [harith] at hres
    exact hres
  · have hres := remove_seam_rect hIdxRect hslen2 hsW
    have harith : W - i - 1 = W - (i + 1) := by omega
    rw [harith] at hres
    exact hres
  · constructor
    · simp [hSlen]
    · intro r hr
      obtain ⟨ri, hri, rfl⟩ := List.mem_iff_getElem.mp hr
      have hriH : ri < H := by
        simp only [List.length_map, List.length_range] at hri
        omega
      rw [← getD_eq_getElem_of_lt _ [] hri, hseams2 ri hriH, List.length_set]
      exact hSeamsRect.getD_length hriH
  · intro r hr
    obtain ⟨ri, hri, rfl⟩ := List.mem_iff_getElem.mp hr
    have hriH : ri < H := by
      have hre := remove_seam_rect hIdxRect hslen2 hsW
      rw [hre.1] at hri
      exact hri
    rw [← getD_eq_getElem_of_lt _ [] hri, hidx2 ri hriH]
    exact (remove_seam_row_sublist (hsr ri hriH)).trans
      (inv.idx_sub _ (hidxmemD ri hriH))
  · intro ri hri c hc
    rw [hseams2 ri hri, hidx2 ri hri]
    exact stamped_corr (hnodup ri hri) (hsr ri hri)
      (hSeamsRect.getD_length hri) (inv.corr ri hri) c hc
  · intro ri hri m h1 h2
    rw [hseams2 ri hri]
    have ho : (st.2.1.getD ri []).getD
        (((optSeam H energy).map Int.toNat).getD ri 0) 0 <
        (st.2.2.getD ri []).length := by
      rw [hSeamsRect.getD_length hri]
      exact horiglt ri hri
    refine (stamped_count ho (hzero ri hri) (inv.lab_count ri hri)
      (inv.lab_range ri hri)).1 m h1 ?_
    exact_mod_cast h2
  · intro ri hri v hv
    rw [hseams2 ri hri] at hv
    have ho : (st.2.1.getD ri []).getD
        (((optSeam H energy).map Int.toNat).getD ri 0) 0 <
        (st.2.2.getD ri []).length := by
      rw [hSeamsRect.getD_length hri]
      exact horiglt ri hri
    have hres := (stamped_count ho (hzero ri hri) (inv.lab_count ri hri)
      (inv.lab_range ri hri)).2 v hv
    exact ⟨hres.1, by exact_mod_cast hres.2⟩

theorem fsLoop_inv {H W k : ℕ} (hH : 2 ≤ H) (hkW : k + 1 ≤ W) :
    ∀ (fuel i : ℕ) (st : Arr RGB × Mat ℕ × Mat ℤ), FSInv H W i st →
    i + fuel ≤ k →
    ∃ st2, fsLoop fuel i st = some st2 ∧ FSInv H W (i + fuel) st2
  | 0, i, st, inv, _ => ⟨st, rfl, by simpa using inv⟩
  | fuel + 1, i, st, inv, hik => by
    obtain ⟨st2, hstep, inv2⟩ := find_seamsStep_inv inv hH (by omega)
    obtain ⟨st3, hloop, inv3⟩ := fsLoop_inv hH hkW fuel (i + 1) st2 inv2 (by omega)
    refine ⟨st3, ?_, by
      have harith : i + 1 + fuel = i + (fuel + 1) := by omega
      rw [← harith]
      exact inv3⟩
    show (find_seamsStep i st).bind (fsLoop fuel (i + 1)) = some st3
    rw [hstep]
    simpa using hloop

theorem find_seams_spec {a : Arr RGB} {H W : ℕ} (h : IsRect a.data H W)
    (hH : 2 ≤ H) {k : ℕ} (hk : k < W) :
    ∃ S, find_seams a k = some S ∧ IsRect S H W ∧
      (∀ ri, ri < H → ∀ m : ℤ, 1 ≤ m → m ≤ (k : ℤ) → (S.getD ri []).count m = 1) ∧
      (∀ ri, ri < H → ∀ v ∈ S.getD ri [], 0 ≤ v ∧ v ≤ (k : ℤ)) := by
  obtain ⟨st2, hloop, inv2⟩ := fsLoop_inv hH (by omega : k + 1 ≤ W) k 0
    (a, (List.range H).map (fun _ => List.range W),
      (List.range H).map (fun _ => (List.range W).map (fun _ => (0 : ℤ))))
    (fsInv_init h) (by omega)
  refine ⟨st2.2.2, ?_, inv2.seams_rect, fun ri hri m h1 h2 => by
      have := inv2.lab_count ri hri m h1 (by simpa using h2)
      exact this,
    fun ri hri v hv => by
      have := inv2.lab_range ri hri v hv
      simpa using this⟩
  unfold find_seams
  rw [h.1, widthOf_eq h (by omega)]
  rw [if_neg (by omega : ¬ ¬ W > k)]
  show Option.map (fun st => st.2.2)
    (fsLoop k 0 (a, (List.range H).map (fun _ => List.range W),
      (List.range H).map (fun _ => (List.range W).map (fun _ => (0 : ℤ))))) =
    some st2.2.2
  rw [hloop]
  rfl

/-! ### np.where with exactly one match per row; the enlarge loop -/

theorem filter_positions_length (lab : ℤ) (row : List ℤ) :
    ((List.range row.length).filter (fun j => decide (row.getD j 0 = lab))).length
      = row.count lab := by
  induction row with
  | nil => simp
  | cons x xs ih =>
    rw [List.length_cons, List.range_succ_eq_map, List.filter_cons]
    have hfun : ((fun j => decide ((x :: xs).getD j 0 = lab)) ∘ Nat.succ) =
        (fun j => decide (xs.getD j 0 = lab)) := by
      funext j
      simp [Function.comp, List.getD_cons_succ]
    rw [List.filter_map, hfun]
    rw [List.count_cons]
    by_cases hx : x = lab
    · rw [if_pos (by simpa using hx), if_pos (by simpa using hx)]
      simp only [List.length_cons, List.length_map]
      omega
    · rw [if_neg (by simpa using hx), if_neg (by simpa using hx)]
      simp only [List.length_map]
      omega

theorem count_one_filter {row : List ℤ} {lab : ℤ} (h : row.count lab = 1) :
    ∃ pos, pos < row.length ∧ row.getD pos 0 = lab ∧
      (List.range row.length).filter (fun j => decide (row.getD j 0 = lab))
        = [pos] := by
  have hlen := filter_positions_length lab row
  rw [h] at hlen
  cases hf : (List.range row.length).filter (fun j => decide (row.getD j 0 = lab))
    with
  | nil =>
    rw [hf] at hlen
    simp at hlen
  | cons pos rest =>
    rw [hf] at hlen
    have hrest : rest = [] := by
      simp only [List.length_cons] at hlen
      exact List.length_eq_zero.mp (by omega)
    subst hrest
    have hmem : pos ∈ (List.range row.length).filter
        (fun j => decide (row.getD j 0 = lab)) := by
      rw [hf]
      simp
    rw [List.mem_filter] at hmem
    exact ⟨pos, List.mem_range.mp hmem.1, by simpa using hmem.2, rfl⟩

theorem whereCols_spec (lab : ℤ) : ∀ (S : Mat ℤ),
    (∀ row ∈ S, row.count lab = 1) →
    (whereCols S lab).length = S.length ∧
    (∀ ri, ri < S.length →
      (whereCols S lab).getD ri 0 < (S.getD ri []).length ∧
      (S.getD ri []).getD ((whereCols S lab).getD ri 0) 0 = lab) := by
  intro S
  induction S with
  | nil => intro _; exact ⟨by simp [whereCols], by intro ri hri; simp at hri⟩
  | cons row rest ih =>
    intro h
    obtain ⟨pos, hpos, hval, hfilter⟩ := count_one_filter (h row (by simp))
    have hih := ih (fun r hr => h r (by simp [hr]))
    have hcons : whereCols (row :: rest) lab = pos :: whereCols rest lab := by
      unfold whereCols
      rw [List.map_cons, List.flatten_cons, hfilter]
      rfl
    constructor
    · rw [hcons]
      simp [hih.1]
    · intro ri hri
      match ri with
      | 0 =>
        rw [hcons]
        simp only [List.getD_cons_zero]
        exact ⟨hpos, hval⟩
      | Nat.succ rj =>
        rw [hcons]
        simp only [List.getD_cons_succ]
        exact hih.2 rj (by simpa using hri)

theorem duplicate_row_count {row : List ℤ} {s : ℕ} (h : s < row.length) {m : ℤ}
    (hne : row.getD s 0 ≠ m) :
    (duplicate_seam_row row s).count m = row.count m := by
  have hval : row[s] = row.getD s 0 := (getD_eq_getElem_of_lt row 0 h).symm
  have hif : ¬ ((row[s] == m) = true) := by
    simp only [beq_iff_eq]
    rw [hval]
    exact hne
  rw [duplicate_seam_row_eq h, List.count_append]
  have e1 : (row.take (s + 1)).count m = (row.take s).count m := by
    rw [List.take_succ, List.getElem?_eq_getElem h]
    show ((row.take s) ++ [row[s]]).count m = _
    rw [List.count_append, List.count_singleton, if_neg hif]
    omega
  have e2 : (row.drop s).count m = (row.drop (s + 1)).count m := by
    rw [List.drop_eq_getElem_cons h, List.count_cons, if_neg hif]
    omega
  have e3 : row.count m = (row.take s).count m + (row.drop (s + 1)).count m := by
    conv_lhs => rw [← List.take_append_drop s row]
    rw [List.count_append, List.drop_eq_getElem_cons h, List.count_cons,
      if_neg hif]
    omega
  rw [e1, e2, e3]

theorem enlLoop_spec {H V k : ℕ} (hH : 0 < H) :
    ∀ (fuel i : ℕ) (st : Arr RGB × Mat ℤ), i + fuel = k →
    IsRect st.1.data H (V + i) → IsRect st.2 H (V + i) →
    (∀ ri, ri < H → ∀ m : ℤ, (i : ℤ) + 1 ≤ m → m ≤ (k : ℤ) →
      (st.2.getD ri []).count m = 1) →
    IsRect (enlLoop fuel ((i : ℤ) + 1) st).1.data H (V + k)
  | 0, i, st, hik, himg, _, _ => by
    unfold enlLoop
    have harith : V + i = V + k := by omega
    rw [← harith]
    exact himg
  | fuel + 1, i, st, hik, himg, hsm, hcount => by
    have hik1 : (i : ℤ) + 1 ≤ (k : ℤ) := by
      have : i + 1 ≤ k := by omega
      exact_mod_cast this
    have hcnt1 : ∀ row ∈ st.2, row.count ((i : ℤ) + 1) = 1 := by
      intro row hrow
      obtain ⟨ri, hri, rfl⟩ := List.mem_iff_getElem.mp hrow
      have hriH : ri < H := by
        rw [hsm.1] at hri
        exact hri
      rw [← getD_eq_getElem_of_lt _ [] hri]
      exact hcount ri hriH ((i : ℤ) + 1) (le_refl _) hik1
    obtain ⟨hwlen, hwspec⟩ := whereCols_spec ((i : ℤ) + 1) st.2 hcnt1
    have hcolW : ∀ ri, ri < H →
        (whereCols st.2 ((i : ℤ) + 1)).getD ri 0 < V + i := by
      intro ri hri
      have hres := (hwspec ri (by rw [hsm.1]; exact hri)).1
      rw [hsm.getD_length hri] at hres
      exact hres
    have hcollen : (whereCols st.2 ((i : ℤ) + 1)).length = H := by
      rw [hwlen, hsm.1]
    have himg2 := duplicate_seam_rect himg hcollen hcolW
    have hsm2 := duplicate_seam_rect hsm hcollen hcolW
    have hcount2 : ∀ ri, ri < H → ∀ m : ℤ, (i : ℤ) + 1 + 1 ≤ m → m ≤ (k : ℤ) →
        ((duplicate_seam st.2 (whereCols st.2 ((i : ℤ) + 1))).getD ri []).count m
          = 1 := by
      intro ri hri m hm1 hm2
      rw [duplicate_seam_getD_row (by rw [hsm.1]; exact hri)
        (by rw [hcollen]; exact hri)]
      have hne2 : (st.2.getD ri []).getD
          ((whereCols st.2 ((i : ℤ) + 1)).getD ri 0) 0 ≠ m := by
        rw [(hwspec ri (by rw [hsm.1]; exact hri)).2]
        omega
      rw [duplicate_row_count
        (by rw [hsm.getD_length hri]; exact hcolW ri hri) hne2]
      exact hcount ri hri m (by omega) hm2
    have hres : IsRect (enlLoop fuel (((i + 1 : ℕ) : ℤ) + 1)
        (duplicate_seamA st.1 (whereCols st.2 ((i : ℤ) + 1)),
         duplicate_seam st.2 (whereCols st.2 ((i : ℤ) + 1)))).1.data H (V + k) :=
      enlLoop_spec hH fuel (i + 1)
      (duplicate_seamA st.1 (whereCols st.2 ((i : ℤ) + 1)),
       duplicate_seam st.2 (whereCols st.2 ((i : ℤ) + 1)))
      (by omega)
      (by
        have harith : V + i + 1 = V + (i + 1) := by omega
        rw [← harith]
        exact himg2)
      (by
        have harith : V + i + 1 = V + (i + 1) := by omega
        rw [← harith]
        exact hsm2)
      (by
        intro ri hri m hm1 hm2
        refine hcount2 ri hri m ?_ hm2
        have hc : (((i + 1 : ℕ) : ℤ)) = (i : ℤ) + 1 := by push_cast; ring
        omega)
    have hc : (((i + 1 : ℕ) : ℤ)) + 1 = (i : ℤ) + 1 + 1 := by push_cast; ring
    rw [hc] at hres
    exact hres

theorem enlLoop_dtype : ∀ (fuel : ℕ) (lab : ℤ) (st : Arr RGB × Mat ℤ),
    0 < fuel → (enlLoop fuel lab st).1.dtype = DType.float64
  | 1, _, _, _ => rfl
  | fuel + 2, lab, st, _ => by
    show (enlLoop (fuel + 1) (lab + 1) _).1.dtype = _
    exact enlLoop_dtype (fuel + 1) (lab + 1) _ (by omega)

theorem enlarge_spec {a : Arr RGB} {H W : ℕ} (h : IsRect a.data H W) (hH : 2 ≤ H)
    {size : ℤ} (h1 : (W : ℤ) < size) (h2 : size < 2 * W) :
    ∃ out, enlarge a size = some out ∧ IsRect out.data H size.toNat ∧
      out.dtype = DType.float64 := by
  have hwidth : widthOf a.data = W := widthOf_eq h (by omega)
  have hk : (size - (W : ℤ)).toNat < W := by omega
  obtain ⟨S, hS, hSrect, hScount, hSrange⟩ := find_seams_spec h hH hk
  have hloop := enlLoop_spec (H := H) (V := W) (k := (size - (W : ℤ)).toNat)
    (by omega) (size - (W : ℤ)).toNat 0 (a, S) (by omega)
    (by simpa using h) (by simpa using hSrect)
    (by
      intro ri hri m hm1 hm2
      exact hScount ri hri m (by omega) hm2)
  have h01 : ((0 : ℕ) : ℤ) + 1 = (1 : ℤ) := by norm_num
  rw [h01] at hloop
  have hsize : W + (size - (W : ℤ)).toNat = size.toNat := by omega
  rw [hsize] at hloop
  refine ⟨(enlLoop (size - (W : ℤ)).toNat 1 (a, S)).1, ?_, hloop, ?_⟩
  · unfold enlarge
    rw [hwidth]
    rw [if_neg (by omega), if_neg (by omega)]
    show (find_seams a (size - ((W : ℕ) : ℤ)).toNat).bind (fun sm =>
      some (enlLoop (size - ((W : ℕ) : ℤ)).toNat 1 (a, sm)).1) =
      some (enlLoop (size - ((W : ℕ) : ℤ)).toNat 1 (a, S)).1
    rw [hS]
    rfl
  · exact enlLoop_dtype _ 1 _ (by omega)

/-! ### Cell-level characterization of the argmin tie-break -/

theorem pick3_snd_char (c0 c1 c2 : WithTop ℚ) :
    ((pick3 c0 c1 c2).2 = -1 ↔ (c0 ≤ c1 ∧ c0 ≤ c2)) ∧
    ((pick3 c0 c1 c2).2 = 0 ↔ (¬ (c0 ≤ c1 ∧ c0 ≤ c2) ∧ c1 ≤ c2)) ∧
    ((pick3 c0 c1 c2).2 = 1 ↔ (¬ (c0 ≤ c1 ∧ c0 ≤ c2) ∧ ¬ c1 ≤ c2)) := by
  unfold pick3
  split_ifs with h1 h2
  · exact ⟨iff_of_true rfl h1,
      iff_of_false (by norm_num) (fun h => h.1 h1),
      iff_of_false (by norm_num) (fun h => h.1 h1)⟩
  · exact ⟨iff_of_false (by norm_num) h1,
      iff_of_true rfl ⟨h1, h2⟩,
      iff_of_false (by norm_num) (fun h => h.2 h2)⟩
  · exact ⟨iff_of_false (by norm_num) h1,
      iff_of_false (by norm_num) (fun h => h2 h.2),
      iff_of_true rfl ⟨h1, h2⟩⟩

theorem compute_cost_cell {e : Mat ℚ} {H W : ℕ} (h : IsRect e H W) {i j : ℕ}
    (hi : i + 1 < H) (hj : j < W) :
    ((compute_cost e).2.getD (i + 1) []).getD j 0 =
      (pick3 (atZ ((compute_cost e).1.getD i []) ((j : ℤ) - 1))
             (atZ ((compute_cost e).1.getD i []) (j : ℤ))
             (atZ ((compute_cost e).1.getD i []) ((j : ℤ) + 1))).2 := by
  rw [(compute_cost_step i (by rw [h.1]; exact hi)).2]
  simp only [costRowStep]
  rw [getD_range_map _ _ (by rw [h.getD_length hi]; exact hj)]
  rfl

theorem fwdRows_getD (g energy : Mat ℚ) (W : ℕ) :
    ∀ (fuel i t : ℕ) (prev : List ℚ), t < fuel →
    (fwdRows g energy W fuel i prev).1.getD t [] =
      (fwdRow g (if t = 0 then prev
        else (fwdRows g energy W fuel i prev).1.getD (t - 1) [])
        (energy.getD (i + t) []) (i + t) W).1 ∧
    (fwdRows g energy W fuel i prev).2.getD t [] =
      (fwdRow g (if t = 0 then prev
        else (fwdRows g energy W fuel i prev).1.getD (t - 1) [])
        (energy.getD (i + t) []) (i + t) W).2
  | 0, _, _, _, ht => by omega
  | fuel + 1, i, 0, prev, _ => by
    simp only [fwdRows, List.getD_cons_zero, if_pos rfl, Nat.add_zero]
    exact ⟨rfl, rfl⟩
  | fuel + 1, i, t + 1, prev, ht => by
    have ih := fwdRows_getD g energy W fuel (i + 1) t
      (fwdRow g prev (energy.getD i []) i W).1 (by omega)
    have harith : (i + 1) + t = i + (t + 1) := by omega
    rw [harith] at ih
    simp only [fwdRows, List.getD_cons_succ]
    match t, ih with
    | 0, ih =>
      simpa only [if_pos rfl, Nat.sub_self, List.getD_cons_zero] using ih
    | t2 + 1, ih =>
      have hne : ¬ (t2 + 1 = 0) := by omega
      have hne2 : ¬ (t2 + 1 + 1 = 0) := by omega
      rw [if_neg hne] at ih
      rw [if_neg hne2]
      simpa only [Nat.add_sub_cancel, List.getD_cons_succ] using ih

theorem compute_forward_cost_eq (img : Mat RGB) (energy : Mat ℚ)
    (hH : (rgb2gray img).length ≠ 0) :
    compute_forward_cost img energy =
      (fwdRow0 (rgb2gray img) energy ::
        (fwdRows (rgb2gray img) energy (widthOf (rgb2gray img))
          ((rgb2gray img).length - 1) 1 (fwdRow0 (rgb2gray img) energy)).1,
       ((List.range (widthOf (rgb2gray img))).map (fun _ => (0 : ℤ))) ::
        (fwdRows (rgb2gray img) energy (widthOf (rgb2gray img))
          ((rgb2gray img).length - 1) 1 (fwdRow0 (rgb2gray img) energy)).2) := by
  unfold compute_forward_cost
  rw [if_neg hH]

theorem fwdRow0_getD (g energy : Mat ℚ) {j : ℕ} (hj : j < widthOf g) :
    (fwdRow0 g energy).getD j 0 =
      (energy.getD 0 []).getD j 0 +
        (if 0 < j ∧ j < widthOf g - 1 then |gAt g 0 (j + 1) - gAt g 0 (j - 1)|
         else 0) :=
  getD_range_map _ _ hj

theorem compute_forward_cost_cell {img : Mat RGB} {energy : Mat ℚ} {i j : ℕ}
    (hi1 : 1 ≤ i) (hi2 : i < (rgb2gray img).length)
    (hj : j < widthOf (rgb2gray img)) :
    ((compute_forward_cost img energy).2.getD i []).getD j 0 =
      (pick3
        (fwdCands (rgb2gray img)
          ((compute_forward_cost img energy).1.getD (i - 1) []) i j
          (widthOf (rgb2gray img))).1
        (fwdCands (rgb2gray img)
          ((compute_forward_cost img energy).1.getD (i - 1) []) i j
          (widthOf (rgb2gray img))).2.1
        (fwdCands (rgb2gray img)
          ((compute_forward_cost img energy).1.getD (i - 1) []) i j
          (widthOf (rgb2gray img))).2.2).2 := by
  have hH0 : (rgb2gray img).length ≠ 0 := by omega
  rw [compute_forward_cost_eq img energy hH0]
  have ht : i - 1 < (rgb2gray img).length - 1 := by omega
  have hrows := fwdRows_getD (rgb2gray img) energy (widthOf (rgb2gray img))
    ((rgb2gray img).length - 1) 1 (i - 1) (fwdRow0 (rgb2gray img) energy) ht
  have hidx : 1 + (i - 1) = i := by omega
  rw [hidx] at hrows
  have hic : i = (i - 1) + 1 := by omega
  -- the paths row i of the pair is the fwdRows row (i - 1)
  have hpaths : ((fwdRow0 (rgb2gray img) energy ::
        (fwdRows (rgb2gray img) energy (widthOf (rgb2gray img))
          ((rgb2gray img).length - 1) 1 (fwdRow0 (rgb2gray img) energy)).1,
       ((List.range (widthOf (rgb2gray img))).map (fun _ => (0 : ℤ))) ::
        (fwdRows (rgb2gray img) energy (widthOf (rgb2gray img))
          ((rgb2gray img).length - 1) 1
            (fwdRow0 (rgb2gray img) energy)).2).2).getD i [] =
      (fwdRows (rgb2gray img) energy (widthOf (rgb2gray img))
        ((rgb2gray img).length - 1) 1
          (fwdRow0 (rgb2gray img) energy)).2.getD (i - 1) [] := by
    rw [hic]
    exact List.getD_cons_succ
  rw [hpaths, hrows.2]
  -- the cost row (i - 1) of the pair matches the prev argument of fwdRow
  have hcost : ((fwdRow0 (rgb2gray img) energy ::
        (fwdRows (rgb2gray img) energy (widthOf (rgb2gray img))
          ((rgb2gray img).length - 1) 1 (fwdRow0 (rgb2gray img) energy)).1,
       ((List.range (widthOf (rgb2gray img))).map (fun _ => (0 : ℤ))) ::
        (fwdRows (rgb2gray img) energy (widthOf (rgb2gray img))
          ((rgb2gray img).length - 1) 1
            (fwdRow0 (rgb2gray img) energy)).2).1).getD (i - 1) [] =
      (if i - 1 = 0 then fwdRow0 (rgb2gray img) energy
        else (fwdRows (rgb2gray img) energy (widthOf (rgb2gray img))
          ((rgb2gray img).length - 1) 1
            (fwdRow0 (rgb2gray img) energy)).1.getD (i - 1 - 1) []) := by
    by_cases hi0 : i - 1 = 0
    · rw [if_pos hi0, hi0]
      exact List.getD_cons_zero
    · rw [if_neg hi0]
      have hic2 : i - 1 = (i - 1 - 1) + 1 := by omega
      rw [hic2]
      exact List.getD_cons_succ
  rw [hcost]
  simp only [fwdRow]
  rw [getD_range_map _ _ hj]
  rfl

/-! ### The round trip remove-then-duplicate -/

theorem roundtrip_row {α : Type} [Zero α] {row : List α} {s : ℕ}
    (hs : s + 1 < row.length) (d : α) :
    (duplicate_seam_row (remove_seam_row row s) s).length = row.length ∧
    ∀ j, j < row.length →
      (duplicate_seam_row (remove_seam_row row s) s).getD j d =
        if j = s then row.getD (s + 1) d else row.getD j d := by
  have hlen1 : (remove_seam_row row s).length = row.length - 1 :=
    length_remove_seam_row (by omega)
  have hs2 : s < (remove_seam_row row s).length := by omega
  constructor
  · rw [length_duplicate_seam_row hs2, hlen1]
    omega
  · intro j hj
    rw [duplicate_seam_row_getD hs2 d (by omega : j < (remove_seam_row row s).length + 1)]
    by_cases hjs : j ≤ s
    · rw [if_pos hjs]
      rw [remove_seam_row_getD (by omega : s < row.length) d (by omega : j < row.length - 1)]
      by_cases hje : j = s
      · rw [if_pos hje, if_neg (by omega), hje]
      · rw [if_neg hje, if_pos (by omega)]
    · rw [if_neg hjs, if_neg (by omega : ¬ j = s)]
      rw [remove_seam_row_getD (by omega : s < row.length) d (by omega : j - 1 < row.length - 1)]
      rw [if_neg (by omega)]
      have harith : j - 1 + 1 = j := by omega
      rw [harith]

/-! ### The all-false mask of remove_object -/

theorem getD_false_of_all_false {row : List Bool} (h : ∀ b ∈ row, b = false)
    (j : ℕ) : row.getD j false = false := by
  by_cases hj : j < row.length
  · rw [getD_eq_getElem_of_lt row false hj]
    exact h _ (List.getElem_mem hj)
  · rw [List.getD_eq_getElem?_getD, List.getElem?_eq_none (by omega)]
    rfl

theorem maskEnergy_all_false {mask : Mat Bool}
    (h : ∀ row ∈ mask, ∀ b ∈ row, b = false) (e : Mat ℚ) :
    maskEnergy mask e = e := by
  have hcell : ∀ i j, (mask.getD i []).getD j false = false := by
    intro i j
    by_cases hi : i < mask.length
    · exact getD_false_of_all_false
        (h _ (by rw [getD_eq_getElem_of_lt mask [] hi]; exact List.getElem_mem hi)) j
    · have hnil : mask.getD i [] = [] := by
        rw [List.getD_eq_getElem?_getD, List.getElem?_eq_none (by omega)]
        rfl
      rw [hnil]
      rfl
  unfold maskEnergy
  have hrow : ∀ i, ((List.range (e.getD i []).length).map (fun j =>
      if (mask.getD i []).getD j false then -100000
      else (e.getD i []).getD j 0)) = e.getD i [] := by
    intro i
    have : ∀ j, (if (mask.getD i []).getD j false then (-100000 : ℚ)
        else (e.getD i []).getD j 0) = (e.getD i []).getD j 0 := by
      intro j
      rw [hcell i j]
      simp
    calc ((List.range (e.getD i []).length).map (fun j =>
        if (mask.getD i []).getD j false then -100000
        else (e.getD i []).getD j 0))
        = (List.range (e.getD i []).length).map (fun j => (e.getD i []).getD j 0) := by
          apply List.map_congr_left
          intro j _
          exact this j
      _ = e.getD i [] := map_getD_range _ _
  calc (List.range e.length).map (fun i =>
      (List.range (e.getD i []).length).map (fun j =>
        if (mask.getD i []).getD j false then -100000
        else (e.getD i []).getD j 0))
      = (List.range e.length).map (fun i => e.getD i []) := by
        apply List.map_congr_left
        intro i _
        exact hrow i
    _ = e := map_getD_range e []

theorem iterOpt_congr {f g : α → Option α} (h : ∀ x, f x = g x) :
    ∀ (n : ℕ) (x : α), iterOpt f n x = iterOpt g n x
  | 0, _ => rfl
  | n + 1, x => by
    unfold iterOpt
    rw [h x]
    cases g x with
    | none => rfl
    | some y => exact iterOpt_congr h n y

theorem carveStepMasked_all_false {mask : Mat Bool}
    (h : ∀ row ∈ mask, ∀ b ∈ row, b = false) (H : ℕ) (a : Arr RGB) :
    carveStepMasked H mask a = carveStep H a := by
  unfold carveStepMasked carveStep
  cases he : energy_function a.data with
  | none => rfl
  | some e =>
    simp only [Option.bind_eq_bind, Option.some_bind]
    rw [maskEnergy_all_false h e]

theorem foldl_max_zeros : ∀ (l : List ℕ), (∀ x ∈ l, x = 0) → l.foldl max 0 = 0
  | [], _ => rfl
  | x :: xs, h => by
    have hx : x = 0 := h x (by simp)
    have : max 0 x = 0 := by omega
    simp only [List.foldl_cons, this]
    exact foldl_max_zeros xs (fun y hy => h y (by simp [hy]))

theorem countP_zero_of_all_false {row : List Bool} (h : ∀ b ∈ row, b = false) :
    row.countP id = 0 := by
  rw [List.countP_eq_zero]
  intro b hb
  rw [h b hb]
  simp

/-! ### Rejection behaviour of reduce and enlarge; remove_object phases -/

theorem compute_cost_stepOK_mem {e : Mat ℚ} {H W : ℕ} (h : IsRect e H W) :
    ∀ r ∈ (compute_cost e).2, StepOK r W := by
  intro r hr
  obtain ⟨i, hi, rfl⟩ := List.mem_iff_getElem.mp hr
  have hiH : i < H := by
    have := (compute_cost_rect h).2.1
    omega
  rw [← getD_eq_getElem_of_lt _ [] hi]
  exact compute_cost_paths_ok h i hiH

theorem reduce_reject (a : Arr RGB) (size : ℤ)
    (h : (widthOf a.data : ℤ) ≤ size ∨ size ≤ 0) :
    reduce a size = none := by
  unfold reduce
  rcases h with h | h
  · rw [if_pos (by omega)]
  · by_cases h2 : (widthOf a.data : ℤ) > size
    · rw [if_neg (by omega), if_pos (by omega)]
    · rw [if_pos (by omega)]

theorem enlarge_reject (a : Arr RGB) (size : ℤ)
    (h : 2 * (widthOf a.data : ℤ) ≤ size) :
    enlarge a size = none := by
  unfold enlarge
  by_cases h1 : size > (widthOf a.data : ℤ)
  · rw [if_neg (by omega)]
    by_cases h2 : size ≤ 2 * (widthOf a.data : ℤ)
    · rw [if_neg (by omega)]
      show (find_seams a (size - (widthOf a.data : ℤ)).toNat).bind (fun sm =>
        some (enlLoop (size - (widthOf a.data : ℤ)).toNat 1 (a, sm)).1) = none
      have hfs : find_seams a (size - (widthOf a.data : ℤ)).toNat = none := by
        unfold find_seams
        rw [if_pos (by omega)]
      rw [hfs]
      rfl
    · rw [if_pos (by omega)]
  · rw [if_pos (by omega)]

theorem enlarge_some_dtype {a : Arr RGB} {size : ℤ} {out : Arr RGB}
    (h : enlarge a size = some out) : out.dtype = DType.float64 := by
  unfold enlarge at h
  by_cases h1 : ¬ (size > (widthOf a.data : ℤ))
  · rw [if_pos h1] at h
    exact absurd h (by simp)
  · rw [if_neg h1] at h
    by_cases h2 : ¬ (size ≤ 2 * (widthOf a.data : ℤ))
    · rw [if_pos h2] at h
      exact absurd h (by simp)
    · rw [if_neg h2] at h
      revert h
      show ((find_seams a (size - (widthOf a.data : ℤ)).toNat).bind (fun sm =>
        some (enlLoop (size - (widthOf a.data : ℤ)).toNat 1 (a, sm)).1) = some out)
        → out.dtype = DType.float64
      intro h
      cases hfs : find_seams a (size - (widthOf a.data : ℤ)).toNat with
      | none =>
        rw [hfs] at h
        exact absurd h (by simp)
      | some sm =>
        rw [hfs] at h
        simp only [Option.some_bind, Option.some.injEq] at h
        rw [← h]
        exact enlLoop_dtype _ 1 _ (by omega)

theorem remove_object_all_false (a : Arr RGB) (mask : Mat Bool)
    (hshape : a.data.length = mask.length ∧ widthOf a.data = widthOf mask)
    (hfalse : ∀ row ∈ mask, ∀ b ∈ row, b = false) :
    remove_object a mask =
      (iterOpt (carveStep a.data.length) 30 a).bind
        (fun out => enlarge out ((widthOf a.data : ℕ) : ℤ)) := by
  unfold remove_object
  rw [if_neg (not_not.mpr hshape)]
  show (iterOpt (carveStepMasked a.data.length mask)
      ((mask.map (fun row => row.countP id)).foldl max 0 + 30) a).bind
      (fun out => enlarge out ((widthOf a.data : ℕ) : ℤ)) = _
  have hn : ∀ x ∈ mask.map (fun row => row.countP id), x = 0 := by
    intro x hx
    obtain ⟨row, hrow, rfl⟩ := List.mem_map.mp hx
    exact countP_zero_of_all_false (hfalse row hrow)
  have hfold : (mask.map (fun row => row.countP id)).foldl max 0 = 0 :=
    foldl_max_zeros _ hn
  rw [hfold]
  have h30 : 0 + 30 = 30 := by omega
  rw [h30]
  rw [iterOpt_congr (carveStepMasked_all_false hfalse a.data.length) 30 a]

/-! ### Concrete fixtures used by the claims -/

/-- The 3×4 tie-break scenario energy grid: columns 1 and 2 tie for the
minimum energy in every row. -/
def scenarioEnergy : Mat ℚ := [[5, 1, 1, 5], [5, 1, 1, 5], [5, 1, 1, 5]]

/-- A constant-colour 2×2 RGB image with integer dtype. -/
def img22 : Arr RGB := ⟨DType.int64, [[(0, 0, 0), (0, 0, 0)], [(0, 0, 0), (0, 0, 0)]]⟩

/-- The all-false 2×2 mask. -/
def mask22 : Mat Bool := [[false, false], [false, false]]

/-- A constant-colour 2×3 RGB image with integer dtype. -/
def img23 : Arr RGB :=
  ⟨DType.int64, [[(0, 0, 0), (0, 0, 0), (0, 0, 0)], [(0, 0, 0), (0, 0, 0), (0, 0, 0)]]⟩

/-- A 2×3 image whose first row has grayscale values 0, 0, 1, so the forward
cost of its interior column in row 0 picks up a nonzero horizontal term. -/
def imgGrad : Mat RGB :=
  [[(0, 0, 0), (0, 0, 0), (1, 1, 1)], [(0, 0, 0), (0, 0, 0), (0, 0, 0)]]

def zeroEnergy23 : Mat ℚ := [[0, 0, 0], [0, 0, 0]]

/-- A single-row 1×2 RGB image: too few rows for the axis-0 gradient. -/
def img12R : Arr RGB := ⟨DType.int64, [[(0, 0, 0), (0, 0, 0)]]⟩

/-- A 2×3 float64 RGB image with pairwise distinct pixels. -/
def arr23R : Arr RGB :=
  ⟨DType.float64,
   [[(1, 0, 0), (2, 0, 0), (3, 0, 0)], [(4, 0, 0), (5, 0, 0), (6, 0, 0)]]⟩

/-- A 1×3 integer grid. -/
def arr13 : Arr ℚ := ⟨DType.int64, [[1, 2, 3]]⟩

/-- A 2×3 integer grid. -/
def grid23Q : Arr ℚ := ⟨DType.int64, [[1, 2, 3], [4, 5, 6]]⟩

/-! ### The claims -/

/-- C1: in both cost-accumulation variants, whenever candidate predecessors
tie for the minimum, the left-most candidate is chosen (direction -1
preferred over 0, 0 over +1): the direction is -1 exactly when the left
candidate is a minimum, 0 exactly when it is not but the middle one is, and
+1 only when the right candidate is the strict minimum; and on the 3×4 grid
whose columns 1 and 2 tie for minimum energy in every row, the traced seam
selects column 1 in every row. -/
theorem claim_C1_tiebreak_leftmost :
    (∀ (energy : Mat ℚ) (H W i j : ℕ), IsRect energy H W → i + 1 < H → j < W →
      ((atZ ((compute_cost energy).1.getD i []) ((j : ℤ) - 1) ≤
          atZ ((compute_cost energy).1.getD i []) (j : ℤ) ∧
        atZ ((compute_cost energy).1.getD i []) ((j : ℤ) - 1) ≤
          atZ ((compute_cost energy).1.getD i []) ((j : ℤ) + 1)) →
        ((compute_cost energy).2.getD (i + 1) []).getD j 0 = -1) ∧
      (¬ (atZ ((compute_cost energy).1.getD i []) ((j : ℤ) - 1) ≤
          atZ ((compute_cost energy).1.getD i []) (j : ℤ) ∧
        atZ ((compute_cost energy).1.getD i []) ((j : ℤ) - 1) ≤
          atZ ((compute_cost energy).1.getD i []) ((j : ℤ) + 1)) →
        atZ ((compute_cost energy).1.getD i []) (j : ℤ) ≤
          atZ ((compute_cost energy).1.getD i []) ((j : ℤ) + 1) →
        ((compute_cost energy).2.getD (i + 1) []).getD j 0 = 0) ∧
      (¬ (atZ ((compute_cost energy).1.getD i []) ((j : ℤ) - 1) ≤
          atZ ((compute_cost energy).1.getD i []) (j : ℤ) ∧
        atZ ((compute_cost energy).1.getD i []) ((j : ℤ) - 1) ≤
          atZ ((compute_cost energy).1.getD i []) ((j : ℤ) + 1)) →
        ¬ atZ ((compute_cost energy).1.getD i []) (j : ℤ) ≤
          atZ ((compute_cost energy).1.getD i []) ((j : ℤ) + 1) →
        ((compute_cost energy).2.getD (i + 1) []).getD j 0 = 1)) ∧
    (∀ (img : Mat RGB) (energy : Mat ℚ) (i j : ℕ), 1 ≤ i →
      i < (rgb2gray img).length → j < widthOf (rgb2gray img) →
      ((fwdCands (rgb2gray img)
          ((compute_forward_cost img energy).1.getD (i - 1) []) i j
          (widthOf (rgb2gray img))).1 ≤
        (fwdCands (rgb2gray img)
          ((compute_forward_cost img energy).1.getD (i - 1) []) i j
          (widthOf (rgb2gray img))).2.1 ∧
        (fwdCands (rgb2gray img)
          ((compute_forward_cost img energy).1.getD (i - 1) []) i j
          (widthOf (rgb2gray img))).1 ≤
        (fwdCands (rgb2gray img)
          ((compute_forward_cost img energy).1.getD (i - 1) []) i j
          (widthOf (rgb2gray img))).2.2 →
        ((compute_forward_cost img energy).2.getD i []).getD j 0 = -1) ∧
      (¬ ((fwdCands (rgb2gray img)
          ((compute_forward_cost img energy).1.getD (i - 1) []) i j
          (widthOf (rgb2gray img))).1 ≤
        (fwdCands (rgb2gray img)
          ((compute_forward_cost img energy).1.getD (i - 1) []) i j
          (widthOf (rgb2gray img))).2.1 ∧
        (fwdCands (rgb2gray img)
          ((compute_forward_cost img energy).1.getD (i - 1) []) i j
          (widthOf (rgb2gray img))).1 ≤
        (fwdCands (rgb2gray img)
          ((compute_forward_cost img energy).1.getD (i - 1) []) i j
          (widthOf (rgb2gray img))).2.2) →
        (fwdCands (rgb2gray img)
          ((compute_forward_cost img energy).1.getD (i - 1) []) i j
          (widthOf (rgb2gray img))).2.1 ≤
        (fwdCands (rgb2gray img)
          ((compute_forward_cost img energy).1.getD (i - 1) []) i j
          (widthOf (rgb2gray img))).2.2 →
        ((compute_forward_cost img energy).2.getD i []).getD j 0 = 0) ∧
      (¬ ((fwdCands (rgb2gray img)
          ((compute_forward_cost img energy).1.getD (i - 1) []) i j
          (widthOf (rgb2gray img))).1 ≤
        (fwdCands (rgb2gray img)
          ((compute_forward_cost img energy).1.getD (i - 1) []) i j
          (widthOf (rgb2gray img))).2.1 ∧
        (fwdCands (rgb2gray img)
          ((compute_forward_cost img energy).1.getD (i - 1) []) i j
          (widthOf (rgb2gray img))).1 ≤
        (fwdCands (rgb2gray img)
          ((compute_forward_cost img energy).1.getD (i - 1) []) i j
          (widthOf (rgb2gray img))).2.2) →
        ¬ (fwdCands (rgb2gray img)
          ((compute_forward_cost img energy).1.getD (i - 1) []) i j
          (widthOf (rgb2gray img))).2.1 ≤
        (fwdCands (rgb2gray img)
          ((compute_forward_cost img energy).1.getD (i - 1) []) i j
          (widthOf (rgb2gray img))).2.2 →
        ((compute_forward_cost img energy).2.getD i []).getD j 0 = 1)) ∧
    backtrack_seam (compute_cost scenarioEnergy).2
      ((argminQ ((compute_cost scenarioEnergy).1.getD 2 []) : ℕ) : ℤ)
      = [1, 1, 1] := by
  refine ⟨?_, ?_, by decide⟩
  · intro energy H W i j h hi hj
    have hcell := compute_cost_cell h hi hj
    refine ⟨fun hc => ?_, fun hc1 hc2 => ?_, fun hc1 hc2 => ?_⟩
    · rw [hcell]
      exact (pick3_snd_char _ _ _).1.mpr hc
    · rw [hcell]
      exact (pick3_snd_char _ _ _).2.1.mpr ⟨hc1, hc2⟩
    · rw [hcell]
      exact (pick3_snd_char _ _ _).2.2.mpr ⟨hc1, hc2⟩
  · intro img energy i j hi1 hi2 hj
    have hcell := @compute_forward_cost_cell img energy i j hi1 hi2 hj
    refine ⟨fun hc => ?_, fun hc1 hc2 => ?_, fun hc1 hc2 => ?_⟩
    · rw [hcell]
      exact (pick3_snd_char _ _ _).1.mpr hc
    · rw [hcell]
      exact (pick3_snd_char _ _ _).2.1.mpr ⟨hc1, hc2⟩
    · rw [hcell]
      exact (pick3_snd_char _ _ _).2.2.mpr ⟨hc1, hc2⟩

/-- Witness for C1 at the scenario grid: at cell (1, 2), the left candidate
(column 1) ties the middle candidate and the tie is broken to the left
(direction -1), and the traced seam is column 1 in every row. -/
theorem claim_C1_witness :
    ((compute_cost scenarioEnergy).2.getD 1 []).getD 2 0 = -1 ∧
    backtrack_seam (compute_cost scenarioEnergy).2
      ((argminQ ((compute_cost scenarioEnergy).1.getD 2 []) : ℕ) : ℤ)
      = [1, 1, 1] := by
  refine ⟨?_, claim_C1_tiebreak_leftmost.2.2⟩
  exact (claim_C1_tiebreak_leftmost.1 scenarioEnergy 3 4 0 2 (by decide)
    (by omega) (by omega)).1 (by decide)

/-- C2 counterexample: on a 2×2 image, `enlarge` to `size = 2×W = 4`
(within the claimed supported range `W < size ≤ 2W`) does not succeed: the
seam extractor's `k < W` precondition fails, so the call aborts. -/
theorem claim_C2_counterexample : enlarge img22 4 = none := by decide

/-- C2 amended: `enlarge` succeeds — returning an H×size×C (float64) grid —
for every rectangular H×W×C grid with H ≥ 2 and every `W < size < 2×W`;
`size = 2×W` is rejected (by `find_seams`' `k < W` precondition) and
`size > 2×W` is rejected by `enlarge`'s own precondition, both before any
mutation. -/
theorem claim_C2_amended :
    (∀ (a : Arr RGB) (H W : ℕ) (size : ℤ), IsRect a.data H W → 2 ≤ H →
      (W : ℤ) < size → size < 2 * (W : ℤ) →
      ∃ out, enlarge a size = some out ∧ IsRect out.data H size.toNat ∧
        out.dtype = DType.float64) ∧
    (∀ (a : Arr RGB) (size : ℤ), 2 * (widthOf a.data : ℤ) ≤ size →
      enlarge a size = none) :=
  ⟨fun _ _ _ _ h hH h1 h2 => enlarge_spec h hH h1 h2, enlarge_reject⟩

/-- Witness for C2 at a 2×3 image: enlarging to 4 (inside `W < size < 2W`)
succeeds, enlarging to 6 (= 2W) is rejected. -/
theorem claim_C2_witness :
    (∃ out, enlarge img23 4 = some out ∧ IsRect out.data 2 (4 : ℤ).toNat ∧
      out.dtype = DType.float64) ∧ enlarge img23 6 = none :=
  ⟨claim_C2_amended.1 img23 2 3 4 (by decide) (by omega) (by decide) (by decide),
   claim_C2_amended.2 img23 6 (by decide)⟩

/-- C3 counterexample: `reduce` at `size = W` (here `W = 3`) does not return
the grid unchanged — the precondition `W > size` fails and the call aborts. -/
theorem claim_C3_counterexample : reduce img23 3 = none := by decide

/-- C3 amended: `reduce` rejects every target size ≥ the current width
(including `size = W`, which is not a zero-iteration no-op) and every
size ≤ 0, before any mutation. -/
theorem claim_C3_amended : ∀ (a : Arr RGB) (size : ℤ),
    ((widthOf a.data : ℤ) ≤ size ∨ size ≤ 0) → reduce a size = none :=
  reduce_reject

/-- Witness for C3: an over-large and a non-positive size are both rejected. -/
theorem claim_C3_witness : reduce img23 7 = none ∧ reduce img23 0 = none :=
  ⟨claim_C3_amended img23 7 (Or.inl (by decide)),
   claim_C3_amended img23 0 (Or.inr (by omega))⟩

/-- C4 counterexample: for the forward variant, row 0 of the cost differs
from row 0 of the energy (the horizontal forward term is added at the
interior column). -/
theorem claim_C4_counterexample :
    (compute_forward_cost imgGrad zeroEnergy23).1.getD 0 [] ≠
      zeroEnergy23.getD 0 [] := by decide

/-- C4 amended: for `compute_cost`, row 0 of the cost equals row 0 of the
energy exactly; for `compute_forward_cost`, row 0 of the cost equals row 0 of
the energy plus the horizontal forward term |I(0,j+1) − I(0,j−1)| at every
interior column (so the two rows agree only at the border columns or where
that term vanishes). -/
theorem claim_C4_amended :
    (∀ (energy : Mat ℚ) (H W : ℕ), IsRect energy H W → 0 < H →
      (compute_cost energy).1.getD 0 [] = energy.getD 0 []) ∧
    (∀ (img : Mat RGB) (energy : Mat ℚ) (j : ℕ), j < widthOf (rgb2gray img) →
      0 < (rgb2gray img).length →
      ((compute_forward_cost img energy).1.getD 0 []).getD j 0 =
        (energy.getD 0 []).getD j 0 +
          (if 0 < j ∧ j < widthOf (rgb2gray img) - 1
           then |gAt (rgb2gray img) 0 (j + 1) - gAt (rgb2gray img) 0 (j - 1)|
           else 0)) := by
  constructor
  · intro energy H W h hH
    cases energy with
    | nil =>
      exfalso
      have := h.1
      simp at this
      omega
    | cons e0 rest => exact (compute_cost_row0 e0 rest).1
  · intro img energy j hj hH
    rw [compute_forward_cost_eq img energy (by omega)]
    show (fwdRow0 (rgb2gray img) energy).getD j 0 = _
    exact fwdRow0_getD (rgb2gray img) energy hj

/-- Witness for C4: concrete instances of both halves. -/
theorem claim_C4_witness :
    (compute_cost zeroEnergy23).1.getD 0 [] = zeroEnergy23.getD 0 [] ∧
    ((compute_forward_cost imgGrad zeroEnergy23).1.getD 0 []).getD 1 0 =
      (zeroEnergy23.getD 0 []).getD 1 0 +
        (if 0 < 1 ∧ 1 < widthOf (rgb2gray imgGrad) - 1
         then |gAt (rgb2gray imgGrad) 0 2 - gAt (rgb2gray imgGrad) 0 0|
         else 0) :=
  ⟨claim_C4_amended.1 zeroEnergy23 2 3 (by decide) (by omega),
   claim_C4_amended.2 imgGrad zeroEnergy23 1 (by decide) (by decide)⟩

/-- C5: `remove_seam` on an H×W grid with an in-bounds seam keeps the dtype,
returns an H×(W−1) grid, and per row keeps the columns before the seam and
shifts the columns at or after the seam left by one (the seam cell is
dropped).  The cell type `α` covers both the (H, W, C) case (`α` a channel
tuple) and the single-channel (H, W) case (`α` a scalar). -/
theorem claim_C5_remove_seam {α : Type} (a : Arr α) {H W : ℕ} {seam : List ℕ}
    (h : IsRect a.data H W) (hlen : seam.length = H)
    (hs : ∀ i, i < H → seam.getD i 0 < W) (d : α) :
    (remove_seamA a seam).dtype = a.dtype ∧
    IsRect (remove_seamA a seam).data H (W - 1) ∧
    (∀ i, i < H → ∀ j, j < W - 1 →
      ((remove_seamA a seam).data.getD i []).getD j d =
        if j < seam.getD i 0 then (a.data.getD i []).getD j d
        else (a.data.getD i []).getD (j + 1) d) := by
  refine ⟨rfl, remove_seam_rect h hlen hs, ?_⟩
  intro i hi j hj
  show ((remove_seam a.data seam).getD i []).getD j d = _
  rw [remove_seam_getD_row (by rw [h.1]; exact hi) (by rw [hlen]; exact hi)]
  rw [remove_seam_row_getD (by rw [h.getD_length hi]; exact hs i hi) d
    (by rw [h.getD_length hi]; exact hj)]

/-- Witness for C5 on a concrete 2×3 grid with seam [0, 2]. -/
theorem claim_C5_witness :
    (remove_seamA grid23Q [0, 2]).dtype = grid23Q.dtype ∧
    IsRect (remove_seamA grid23Q [0, 2]).data 2 (3 - 1) ∧
    (∀ i, i < 2 → ∀ j, j < 3 - 1 →
      ((remove_seamA grid23Q [0, 2]).data.getD i []).getD j 0 =
        if j < List.getD [0, 2] i 0 then (grid23Q.data.getD i []).getD j 0
        else (grid23Q.data.getD i []).getD (j + 1) 0) :=
  claim_C5_remove_seam grid23Q (by decide) (by decide) (by decide) 0

/-- C6: the seam backtracked from any direction grid produced by
`compute_cost` and any in-bounds end column has length H, ends at `end`,
satisfies the recurrence `seam[i] = seam[i+1] + paths[i+1][seam[i+1]]`, and
satisfies the bounds `0 ≤ seam[i] < W` and adjacency `|seam[i] − seam[i+1]|
≤ 1` invariants. -/
theorem claim_C6_backtrack {energy : Mat ℚ} {H W : ℕ} (h : IsRect energy H W)
    (hH : 0 < H) {e : ℤ} (h0 : 0 ≤ e) (hW : e < (W : ℤ)) :
    (backtrack_seam (compute_cost energy).2 e).length = H ∧
    (backtrack_seam (compute_cost energy).2 e).getD (H - 1) 0 = e ∧
    (∀ i, i + 1 < H →
      (backtrack_seam (compute_cost energy).2 e).getD i 0 =
        (backtrack_seam (compute_cost energy).2 e).getD (i + 1) 0 +
          idxWrap ((compute_cost energy).2.getD (i + 1) [])
            ((backtrack_seam (compute_cost energy).2 e).getD (i + 1) 0)) ∧
    (∀ i, i < H → 0 ≤ (backtrack_seam (compute_cost energy).2 e).getD i 0 ∧
      (backtrack_seam (compute_cost energy).2 e).getD i 0 < (W : ℤ)) ∧
    (∀ i, i + 1 < H →
      |(backtrack_seam (compute_cost energy).2 e).getD i 0 -
        (backtrack_seam (compute_cost energy).2 e).getD (i + 1) 0| ≤ 1) := by
  have hcr := compute_cost_rect h
  have hrows := compute_cost_stepOK_mem h
  have hplen : 0 < (compute_cost energy).2.length := by
    rw [hcr.2.1]
    omega
  have hspec := backtrack_seam_spec (compute_cost energy).2 e hrows hplen h0 hW
  rw [hcr.2.1] at hspec
  have hidx : ∀ i, i < H → (backtrack_seam (compute_cost energy).2 e).getD i 0 ∈
      backtrack_seam (compute_cost energy).2 e := by
    intro i hi
    rw [getD_eq_getElem_of_lt _ 0 (by rw [hspec.1]; omega)]
    exact List.getElem_mem _
  refine ⟨hspec.1, hspec.2.1, hspec.2.2.2, fun i hi => hspec.2.2.1 _ (hidx i hi), ?_⟩
  intro i hi
  have hrec := hspec.2.2.2 i hi
  obtain ⟨hp0, hpW⟩ := hspec.2.2.1 _ (hidx (i + 1) (by omega))
  have hrowOK := compute_cost_paths_ok h (i + 1) (by omega)
  have hrlen : ((compute_cost energy).2.getD (i + 1) []).length = W := hrowOK.1
  rw [hrec, idxWrap_eq hp0 (by rw [hrlen]; exact hpW)]
  have hptn : ((backtrack_seam (compute_cost energy).2 e).getD (i + 1) 0).toNat
      < W := by omega
  have hd := hrowOK.2 _ hptn
  have harith : (backtrack_seam (compute_cost energy).2 e).getD (i + 1) 0 +
      ((compute_cost energy).2.getD (i + 1) []).getD
        ((backtrack_seam (compute_cost energy).2 e).getD (i + 1) 0).toNat 0 -
      (backtrack_seam (compute_cost energy).2 e).getD (i + 1) 0 =
      ((compute_cost energy).2.getD (i + 1) []).getD
        ((backtrack_seam (compute_cost energy).2 e).getD (i + 1) 0).toNat 0 := by
    ring
  rw [harith]
  exact abs_le.mpr ⟨hd.1, hd.2.1⟩

/-- Witness for C6 at the scenario grid with end column 2. -/
theorem claim_C6_witness :
    (backtrack_seam (compute_cost scenarioEnergy).2 2).length = 3 :=
  (claim_C6_backtrack (show IsRect scenarioEnergy 3 4 by decide) (by omega)
    (by omega) (by decide)).1

/-- C7 counterexample: on the single-row 1×2 image with k = 1 the claim's
precondition k < W holds, yet `find_seams` does not return a label grid at
all — the first pass's energy computation fails, because the axis-0
gradient needs at least two rows. -/
theorem claim_C7_counterexample :
    (1 : ℕ) < widthOf img12R.data ∧ find_seams img12R 1 = none := by decide

/-- C7 amended: for a rectangular H×W×3 image with H ≥ 2 and k < W,
`find_seams` succeeds — in particular the seam-label stamps never hit a
nonzero cell (a violation is modelled as `none`) — and the returned H×W
label grid holds the labels 1..k exactly once per row (so each label
occupies exactly H cells, one per row), with every entry in [0, k]; the
H ≥ 2 restriction is needed because with a single row the gradient inside
the energy computation fails. -/
theorem claim_C7_find_seams {a : Arr RGB} {H W k : ℕ} (h : IsRect a.data H W)
    (hH : 2 ≤ H) (hk : k < W) :
    ∃ S, find_seams a k = some S ∧ IsRect S H W ∧
      (∀ ri, ri < H → ∀ m : ℤ, 1 ≤ m → m ≤ (k : ℤ) →
        (S.getD ri []).count m = 1) ∧
      (∀ ri, ri < H → ∀ v ∈ S.getD ri [], 0 ≤ v ∧ v ≤ (k : ℤ)) :=
  find_seams_spec h hH hk

/-- Witness for C7 at the 2×3 image with k = 1. -/
theorem claim_C7_witness :
    ∃ S, find_seams img23 1 = some S ∧ IsRect S 2 3 ∧
      (∀ ri, ri < 2 → ∀ m : ℤ, 1 ≤ m → m ≤ (1 : ℤ) →
        (S.getD ri []).count m = 1) ∧
      (∀ ri, ri < 2 → ∀ v ∈ S.getD ri [], 0 ≤ v ∧ v ≤ (1 : ℤ)) :=
  claim_C7_find_seams (by decide) (by omega) (by omega)

/-- C8 counterexample: removing the seam [0, 0] from the 2×3×3 image whose
rows are (1,2,3) and (4,5,6) leaves a 2×2×3 image (no singleton axis, so the
squeeze is a no-op and the duplication's 3-D shape unpack succeeds), and
duplicating at the same positions yields rows (2,2,3) and (5,5,6), not the
original image — the round trip duplicates the removed pixel's right
neighbour instead of reinserting the removed value. -/
theorem claim_C8_counterexample :
    duplicate_seamA (remove_seamA arr23R [0, 0]) [0, 0] ≠ arr23R := by decide

/-- C8 amended: on an H×W×3 image with H ≥ 2 and W ≥ 3 (so the removal's
squeeze is a no-op and the duplication's 3-D shape unpack succeeds) and a
seam with seam[i]+1 < W per row, removing the seam and then duplicating at
the same per-row positions restores the original shape, but row i holds the
original value of column seam[i]+1 at column seam[i] (the right neighbour is
duplicated, not the removed pixel), all other cells are unchanged, and the
dtype becomes float64; the original image is restored exactly only where
each seam pixel equals its right neighbour. -/
theorem claim_C8_amended (a : Arr RGB) {H W : ℕ}
    {seam : List ℕ} (h : IsRect a.data H W) (_hH : 2 ≤ H) (_hW : 3 ≤ W)
    (hlen : seam.length = H)
    (hs : ∀ i, i < H → seam.getD i 0 + 1 < W) (d : RGB) :
    (duplicate_seamA (remove_seamA a seam) seam).dtype = DType.float64 ∧
    IsRect (duplicate_seamA (remove_seamA a seam) seam).data H W ∧
    (∀ i, i < H → ∀ j, j < W →
      ((duplicate_seamA (remove_seamA a seam) seam).data.getD i []).getD j d =
        if j = seam.getD i 0 then (a.data.getD i []).getD (seam.getD i 0 + 1) d
        else (a.data.getD i []).getD j d) := by
  have hrect1 : IsRect (remove_seam a.data seam) H (W - 1) :=
    remove_seam_rect h hlen (fun i hi => by have := hs i hi; omega)
  have hlen2 : (duplicate_seamA (remove_seamA a seam) seam).data.length = H := by
    show (duplicate_seam (remove_seam a.data seam) seam).length = H
    unfold duplicate_seam
    rw [List.length_zipWith, hrect1.1, hlen]
    omega
  have hrow : ∀ i, i < H →
      ((duplicate_seamA (remove_seamA a seam) seam).data.getD i []) =
        duplicate_seam_row (remove_seam_row (a.data.getD i []) (seam.getD i 0))
          (seam.getD i 0) := by
    intro i hi
    show ((duplicate_seam (remove_seam a.data seam) seam).getD i []) = _
    rw [duplicate_seam_getD_row (by rw [hrect1.1]; exact hi)
      (by rw [hlen]; exact hi)]
    rw [remove_seam_getD_row (by rw [h.1]; exact hi) (by rw [hlen]; exact hi)]
  refine ⟨rfl, ⟨hlen2, ?_⟩, ?_⟩
  · intro r hr
    obtain ⟨i, hi, rfl⟩ := List.mem_iff_getElem.mp hr
    have hiH : i < H := by
      rw [hlen2] at hi
      exact hi
    rw [← getD_eq_getElem_of_lt _ [] hi]
    rw [hrow i hiH]
    have hro := (@roundtrip_row RGB _ (a.data.getD i []) (seam.getD i 0)
      (by rw [h.getD_length hiH]; exact hs i hiH) d).1
    rw [hro, h.getD_length hiH]
  · intro i hi j hj
    rw [hrow i hi]
    exact (@roundtrip_row RGB _ (a.data.getD i []) (seam.getD i 0)
      (by rw [h.getD_length hi]; exact hs i hi) d).2 j
      (by rw [h.getD_length hi]; exact hj)

/-- Witness for C8 on the 2×3×3 image with seam [0, 0]. -/
theorem claim_C8_witness :
    (duplicate_seamA (remove_seamA arr23R [0, 0]) [0, 0]).dtype =
      DType.float64 ∧
    IsRect (duplicate_seamA (remove_seamA arr23R [0, 0]) [0, 0]).data 2 3 ∧
    (∀ i, i < 2 → ∀ j, j < 3 →
      ((duplicate_seamA (remove_seamA arr23R [0, 0]) [0, 0]).data.getD
          i []).getD j 0 =
        if j = List.getD [0, 0] i 0 then
          (arr23R.data.getD i []).getD (List.getD [0, 0] i 0 + 1) 0
        else (arr23R.data.getD i []).getD j 0) :=
  claim_C8_amended arr23R (by decide) (by decide) (by decide) (by decide)
    (by decide) 0

/-- C9 counterexample: on a 2×2 image with an all-false mask, `remove_object`
does not return the input unchanged — after one unmasked seam-removal pass
the image is 2×1 and the next pass's gradient computation fails, so the call
aborts. -/
theorem claim_C9_counterexample : remove_object img22 mask22 = none := by decide

/-- C9 amended: with an all-false mask the energy-masking step is the
identity, so `remove_object` equals max-row-sum (= 0) + 30 plain seam-removal
passes followed by enlargement back to the original width; it is not a no-op
on the input grid. -/
theorem claim_C9_amended (a : Arr RGB) (mask : Mat Bool)
    (hshape : a.data.length = mask.length ∧ widthOf a.data = widthOf mask)
    (hfalse : ∀ row ∈ mask, ∀ b ∈ row, b = false) :
    remove_object a mask =
      (iterOpt (carveStep a.data.length) 30 a).bind
        (fun out => enlarge out ((widthOf a.data : ℕ) : ℤ)) :=
  remove_object_all_false a mask hshape hfalse

/-- Witness for C9 at the 2×2 image and all-false mask. -/
theorem claim_C9_witness :
    remove_object img22 mask22 =
      (iterOpt (carveStep img22.data.length) 30 img22).bind
        (fun out => enlarge out ((widthOf img22.data : ℕ) : ℤ)) :=
  claim_C9_amended img22 mask22 (by decide) (by decide)

/-- C10: `duplicate_seam` allocates its output with `np.zeros` and therefore
always returns a float64 array, whatever the input dtype; consequently every
successful `enlarge` (which always runs at least one duplication pass)
returns a float64 array, converting integer pixel grids to floating point. -/
theorem claim_C10_duplicate_float64 :
    (∀ (α : Type) [Zero α] (a : Arr α) (seam : List ℕ),
      (duplicate_seamA a seam).dtype = DType.float64) ∧
    (∀ (a : Arr RGB) (size : ℤ) (out : Arr RGB), enlarge a size = some out →
      out.dtype = DType.float64) :=
  ⟨fun _ _ _ _ => rfl, fun _ _ _ h => enlarge_some_dtype h⟩

/-- Witness for C10: a float64 result from an int64 input, both for a single
duplication and for a successful enlarge call. -/
theorem claim_C10_witness :
    (duplicate_seamA arr13 [0]).dtype = DType.float64 ∧
    (∃ out, enlarge img23 4 = some out ∧ out.dtype = DType.float64) := by
  have hsp : ∃ out, enlarge img23 4 = some out ∧
      IsRect out.data 2 (4 : ℤ).toNat ∧ out.dtype = DType.float64 :=
    enlarge_spec (show IsRect img23.data 2 3 by decide) (by omega) (by decide)
      (by decide)
  obtain ⟨out, hout, -, -⟩ := hsp
  exact ⟨claim_C10_duplicate_float64.1 ℚ arr13 [0], out, hout,
    claim_C10_duplicate_float64.2 img23 4 out hout⟩

end SeamCarving

end SeamCarvingDev
